import Mathlib

/-!
# Verification of the FLESH overlay routing and identity-resolution layer

A shallow embedding of the core of the `tascord/flesh` repository, together
with theorems settling the stated correctness claims.

Embedded source files:

* `src/transport/encoding.rs` — the `FLESHMessage` wire codec (postcard binary
  form), Ed25519 sign/verify envelope, and the X25519 + ChaCha20-Poly1305
  body encryption (`encrypt_body` / `decrypt_body`).
* `crates/flesh/src/transport/status.rs` — the `Status` taxonomy.
* `crates/flesh/src/transport/network.rs` — `RoutingMessage`
  (`to_message` / `from_message`), the `handle_requests` routing step,
  `NodeRelationshipMap` (peer table) operations, and `Network::send`.
* `src/resolution/resolver.rs` — fragmentation (`send_with_splitting`) and
  reassembly (`handle_message_part`).

Modelling conventions:

* Bytes are `Nat` (always `< 256` where produced by the embedded code);
  byte strings are `List Nat`.
* `Uuid` / `Fluid` 128-bit identifiers are `Fin (2 ^ 128)`.
* Rust's `std::collections::HashMap` is modelled as an association list in
  its iteration order; `insert` replaces an existing binding in place and
  appends a fresh one at the end.  Serialization of a map is therefore a
  function of the stored entry order, exactly as the Rust code serializes
  the map in its iteration order.  A map freshly rebuilt by deserialization
  has an *unspecified* iteration order (`RandomState` seeds a per-instance
  random SipHash), so the deserializer takes that order as a function
  parameter constrained only to be a permutation of the collected bindings.
* `Instant` timestamps are `Nat` seconds; `Instant::now()` is an explicit
  `now` parameter threaded through each operation.
* The external cryptographic primitives (`ed25519_dalek`, `x25519_dalek`,
  `chacha20poly1305`) are not code of this repository; they enter as
  function parameters of the theorems that need them, constrained only by
  the contracts the embedded code relies on, and instantiated with concrete
  executable toy schemes in the witnesses.
-/

/-! ## Association lists (HashMap model) -/

/-- Model of `HashMap::insert`: replace an existing binding for `k` in place, or append
a new binding at the end of the iteration order. -/
def updateAssoc {κ α : Type} [DecidableEq κ] (l : List (κ × α)) (k : κ) (v : α) :
    List (κ × α) :=
  match l with
  | [] => [(k, v)]
  | (k', v') :: rest =>
      if k' = k then (k, v) :: rest else (k', v') :: updateAssoc rest k v

/-- Model of `HashMap::get`: first binding for `k`. -/
def lookupAssoc {κ α : Type} [DecidableEq κ] (l : List (κ × α)) (k : κ) : Option α :=
  match l with
  | [] => none
  | (k', v') :: rest => if k' = k then some v' else lookupAssoc rest k

/-- Model of `HashMap::remove`: drop the binding for `k`. -/
def removeAssoc {κ α : Type} [DecidableEq κ] (l : List (κ × α)) (k : κ) :
    List (κ × α) :=
  match l with
  | [] => []
  | (k', v') :: rest =>
      if k' = k then removeAssoc rest k else (k', v') :: removeAssoc rest k

theorem lookupAssoc_updateAssoc_self {κ α : Type} [DecidableEq κ]
    (l : List (κ × α)) (k : κ) (v : α) :
    lookupAssoc (updateAssoc l k v) k = some v := by
  induction l with
  | nil => simp [updateAssoc, lookupAssoc]
  | cons hd tl ih =>
      obtain ⟨k', v'⟩ := hd
      by_cases h : k' = k <;> simp [updateAssoc, lookupAssoc, h, ih]

theorem lookupAssoc_updateAssoc_ne {κ α : Type} [DecidableEq κ]
    (l : List (κ × α)) (k j : κ) (v : α) (hne : j ≠ k) :
    lookupAssoc (updateAssoc l k v) j = lookupAssoc l j := by
  induction l with
  | nil =>
      simp only [updateAssoc, lookupAssoc]
      rw [if_neg (fun hh => hne hh.symm)]
  | cons hd tl ih =>
      obtain ⟨k', v'⟩ := hd
      simp only [updateAssoc]
      by_cases h : k' = k
      · subst h
        simp only [if_pos rfl, lookupAssoc]
        rw [if_neg (fun hh => hne hh.symm), if_neg (fun hh => hne hh.symm)]
      · simp only [if_neg h, lookupAssoc]
        by_cases h2 : k' = j
        · rw [if_pos h2, if_pos h2]
        · rw [if_neg h2, if_neg h2, ih]

theorem updateAssoc_fresh {κ α : Type} [DecidableEq κ]
    (l : List (κ × α)) (k : κ) (v : α) (h : lookupAssoc l k = none) :
    updateAssoc l k v = l ++ [(k, v)] := by
  induction l with
  | nil => simp [updateAssoc]
  | cons hd tl ih =>
      obtain ⟨k', v'⟩ := hd
      by_cases hk : k' = k
      · simp [lookupAssoc, hk] at h
      · simp [lookupAssoc, hk] at h
        simp [updateAssoc, hk, ih h]

theorem updateAssoc_updateAssoc {κ α : Type} [DecidableEq κ]
    (l : List (κ × α)) (k : κ) (v w : α) :
    updateAssoc (updateAssoc l k v) k w = updateAssoc l k w := by
  induction l with
  | nil => simp [updateAssoc]
  | cons hd tl ih =>
      obtain ⟨k', v'⟩ := hd
      by_cases h : k' = k <;> simp [updateAssoc, h, ih]

theorem removeAssoc_updateAssoc {κ α : Type} [DecidableEq κ]
    (l : List (κ × α)) (k : κ) (v : α) :
    removeAssoc (updateAssoc l k v) k = removeAssoc l k := by
  induction l with
  | nil => simp [updateAssoc, removeAssoc]
  | cons hd tl ih =>
      obtain ⟨k', v'⟩ := hd
      by_cases h : k' = k
      · subst h
        simp [updateAssoc, removeAssoc]
      · simp [updateAssoc, removeAssoc, h, ih]

theorem removeAssoc_of_lookup_none {κ α : Type} [DecidableEq κ]
    (l : List (κ × α)) (k : κ) (h : lookupAssoc l k = none) :
    removeAssoc l k = l := by
  induction l with
  | nil => simp [removeAssoc]
  | cons hd tl ih =>
      obtain ⟨k', v'⟩ := hd
      by_cases hk : k' = k
      · simp [lookupAssoc, hk] at h
      · simp [lookupAssoc, hk] at h
        simp [removeAssoc, hk, ih h]

theorem lookupAssoc_mem {κ α : Type} [DecidableEq κ]
    (l : List (κ × α)) (k : κ) (v : α) (h : lookupAssoc l k = some v) :
    (k, v) ∈ l := by
  induction l with
  | nil => simp [lookupAssoc] at h
  | cons hd tl ih =>
      obtain ⟨k', v'⟩ := hd
      simp only [lookupAssoc] at h
      split at h
      case isTrue heq =>
        injection h with h2
        subst heq
        subst h2
        exact List.mem_cons_self _ _
      case isFalse heq =>
        exact List.mem_cons_of_mem _ (ih h)

theorem lookupAssoc_isSome_of_mem_keys {κ α : Type} [DecidableEq κ]
    (l : List (κ × α)) (k : κ) (h : k ∈ l.map Prod.fst) :
    (lookupAssoc l k).isSome := by
  induction l with
  | nil => simp at h
  | cons hd tl ih =>
      obtain ⟨k', v'⟩ := hd
      by_cases hk : k' = k
      · simp [lookupAssoc, hk]
      · rcases List.mem_cons.mp h with h1 | h2
        · exact absurd h1.symm hk
        · simp [lookupAssoc, hk, ih h2]

/-! ## Byte-level encodings (postcard wire format) -/

/-- Model of `n` little-endian base-256 digits of `u` (the `uuid` crate serializes a
`Uuid` as its 16 raw bytes). -/
def toBytesLE : Nat → Nat → List Nat
  | 0, _ => []
  | n + 1, u => u % 256 :: toBytesLE n (u / 256)

/-- Rebuild a natural number from little-endian base-256 digits
(`Uuid::from_bytes`). -/
def bytesToNat (l : List Nat) : Nat :=
  l.foldr (fun b acc => acc * 256 + b) 0

theorem toBytesLE_length (n u : Nat) : (toBytesLE n u).length = n := by
  induction n generalizing u with
  | zero => rfl
  | succ n ih => simp [toBytesLE, ih]

theorem bytesToNat_toBytesLE (n u : Nat) :
    bytesToNat (toBytesLE n u) = u % 256 ^ n := by
  induction n generalizing u with
  | zero => simp [toBytesLE, bytesToNat, Nat.mod_one]
  | succ n ih =>
      simp only [toBytesLE, bytesToNat, List.foldr] at ih ⊢
      rw [ih (u / 256)]
      have h2 : u / 256 % 256 ^ n = u % 256 ^ (n + 1) / 256 := by
        rw [pow_succ, mul_comm]
        exact (Nat.mod_mul_right_div_self u 256 (256 ^ n)).symm
      have h3 : u % 256 = u % 256 ^ (n + 1) % 256 :=
        (Nat.mod_mod_of_dvd u (dvd_pow_self 256 (Nat.succ_ne_zero n))).symm
      rw [h2, h3]
      generalize u % 256 ^ (n + 1) = m
      omega

/-- LEB128 worker, structurally recursive on a fuel bound (any
`fuel ≥ n` computes the true LEB128 form; the fallback branch is never
reached then). -/
def varintFuel : Nat → Nat → List Nat
  | 0, n => [n]
  | fuel + 1, n =>
      if n < 128 then [n] else (n % 128 + 128) :: varintFuel fuel (n / 128)

/-- postcard unsigned LEB128 varint (used for `u16`, `u32`, `u64` and all
length prefixes). -/
def varint (n : Nat) : List Nat := varintFuel n n

/-- Varint decoder: bytes with the high bit set are continuation bytes. -/
def parseVarint : List Nat → Option (Nat × List Nat)
  | [] => none
  | b :: rest =>
      if b < 128 then some (b, rest)
      else (parseVarint rest).map (fun p => (b - 128 + 128 * p.1, p.2))

theorem parseVarint_varintFuel (fuel n : Nat) (hf : n ≤ fuel)
    (rest : List Nat) :
    parseVarint (varintFuel fuel n ++ rest) = some (n, rest) := by
  induction fuel generalizing n with
  | zero =>
      have : n = 0 := by omega
      subst this
      simp [varintFuel, parseVarint]
  | succ fuel ih =>
      by_cases h : n < 128
      · simp [varintFuel, h, parseVarint]
      · have hdiv : n / 128 ≤ fuel := by
          have h1 : n / 128 < n := Nat.div_lt_self (by omega) (by omega)
          omega
        simp only [varintFuel, if_neg h, List.cons_append, parseVarint]
        rw [if_neg (by omega)]
        rw [ih (n / 128) hdiv]
        simp
        omega

theorem parseVarint_varint (n : Nat) (rest : List Nat) :
    parseVarint (varint n ++ rest) = some (n, rest) :=
  parseVarint_varintFuel n n (Nat.le_refl n) rest

/-! ## Identifiers -/

instance : NeZero ((2 : Nat) ^ 128) := ⟨by positivity⟩

/-- A 128-bit peer identifier (`uuid::Uuid` / `fl_uid::Fluid`). -/
abbrev Uuid := Fin (2 ^ 128)

/-- The 16 raw bytes of a `Uuid` (`Uuid::as_bytes`, little-endian model). -/
def uuidBytes (u : Uuid) : List Nat := toBytesLE 16 u.val

/-! ## postcard field combinators -/

/-- Model of `Vec<u8>` / `serialize_bytes`: length prefix then raw bytes. -/
def serBytes (b : List Nat) : List Nat := varint b.length ++ b

/-- Byte-string field decoder. -/
def parseBytes (l : List Nat) : Option (List Nat × List Nat) :=
  match parseVarint l with
  | none => none
  | some (n, r) => if r.length < n then none else some (r.take n, r.drop n)

theorem parseBytes_serBytes (b rest : List Nat) :
    parseBytes (serBytes b ++ rest) = some (b, rest) := by
  simp only [serBytes, List.append_assoc, parseBytes, parseVarint_varint]
  rw [if_neg (by simp)]
  rw [List.take_left, List.drop_left]

/-- UTF-8 bytes of a header name.  Every header name used by the embedded
code is ASCII, for which UTF-8 is one byte per character. -/
def strBytes (s : String) : List Nat := s.data.map Char.toNat

/-- Model of `String` field: length prefix then UTF-8 bytes. -/
def serString (s : String) : List Nat := serBytes (strBytes s)

/-- Model of `String` field decoder. -/
def parseString (l : List Nat) : Option (String × List Nat) :=
  match parseBytes l with
  | none => none
  | some (b, r) => some (String.mk (b.map Char.ofNat), r)

theorem parseString_serString (s : String) (rest : List Nat) :
    parseString (serString s ++ rest) = some (s, rest) := by
  simp only [serString, parseString, parseBytes_serBytes, strBytes,
    List.map_map]
  have h : s.data.map (Char.ofNat ∘ Char.toNat) = s.data :=
    calc s.data.map (Char.ofNat ∘ Char.toNat)
        = s.data.map id := List.map_congr_left (fun c _ => Char.ofNat_toNat c)
      _ = s.data := List.map_id s.data
  rw [h]

/-- Model of `Uuid` field: postcard `serialize_bytes` of the 16 raw bytes. -/
def serUuid (u : Uuid) : List Nat := serBytes (uuidBytes u)

/-- Model of `Uuid` field decoder: exactly 16 bytes, rebuilt little-endian. -/
def parseUuid (l : List Nat) : Option (Uuid × List Nat) :=
  match parseBytes l with
  | none => none
  | some (b, r) =>
      if b.length = 16 then
        some (⟨bytesToNat b % 2 ^ 128, Nat.mod_lt _ (by positivity)⟩, r)
      else none

theorem parseUuid_serUuid (u : Uuid) (rest : List Nat) :
    parseUuid (serUuid u ++ rest) = some (u, rest) := by
  simp only [serUuid, parseUuid, parseBytes_serBytes, uuidBytes]
  rw [if_pos (toBytesLE_length 16 u.val)]
  congr 1
  have h256 : (256 : Nat) ^ 16 = 2 ^ 128 := by norm_num
  have := bytesToNat_toBytesLE 16 u.val
  rw [h256] at this
  have hu : u.val % 2 ^ 128 = u.val := Nat.mod_eq_of_lt u.isLt
  refine Prod.ext ?_ rfl
  apply Fin.ext
  simp [this, hu]

/-- Model of `Option<T>` field: one presence byte then the payload. -/
def serOpt {α : Type} (f : α → List Nat) : Option α → List Nat
  | none => [0]
  | some a => 1 :: f a

/-- Model of `Option<T>` field decoder. -/
def parseOpt {α : Type} (p : List Nat → Option (α × List Nat)) :
    List Nat → Option (Option α × List Nat)
  | [] => none
  | 0 :: r => some (none, r)
  | 1 :: r =>
      match p r with
      | none => none
      | some (a, r2) => some (some a, r2)
  | _ :: _ => none

theorem parseOpt_serOpt {α : Type} (p : List Nat → Option (α × List Nat))
    (f : α → List Nat) (o : Option α) (rest : List Nat)
    (hp : ∀ a r, p (f a ++ r) = some (a, r)) :
    parseOpt p (serOpt f o ++ rest) = some (o, rest) := by
  cases o with
  | none => simp [serOpt, parseOpt]
  | some a => simp [serOpt, parseOpt, hp a rest]

/-! ## Status taxonomy (`crates/flesh/src/transport/status.rs`) -/

/-- The wire status codes.  `custom` carries the raw byte for codes outside
the standard table. -/
inductive Status : Type
  | announce
  | ping
  | pong
  | requestKey
  | provideKey
  | requestRelay
  | provideRelay
  | relay
  | tooLarge
  | timeout
  | relayFailure
  | earlyHints
  | redirect
  | acknowledge
  | nonAuthorative
  | alreadyReported
  | unprocessableEntity
  | unauthorized
  | forbidden
  | notFound
  | serverError
  | teapot
  | custom (b : Fin 256)
deriving DecidableEq, Repr

/-- Model of `Status::as_u8`. -/
def Status.as_u8 : Status → Nat
  | .announce => 1
  | .ping => 2
  | .pong => 3
  | .requestKey => 4
  | .provideKey => 5
  | .requestRelay => 6
  | .provideRelay => 7
  | .relay => 8
  | .tooLarge => 15
  | .timeout => 16
  | .relayFailure => 17
  | .earlyHints => 21
  | .redirect => 22
  | .acknowledge => 31
  | .nonAuthorative => 32
  | .alreadyReported => 33
  | .unprocessableEntity => 41
  | .unauthorized => 42
  | .forbidden => 43
  | .notFound => 44
  | .serverError => 51
  | .teapot => 255
  | .custom b => b.val

/-- The deserializer's `Status::STANDARD.iter().find(|v| v.as_u8() == int)`
with fallback `Custom(int)` (the custom `Deserialize` impl in
`src/transport/encoding.rs`). -/
def Status.ofU8 (b : Fin 256) : Status :=
  if b.val = 1 then .announce
  else if b.val = 2 then .ping
  else if b.val = 3 then .pong
  else if b.val = 4 then .requestKey
  else if b.val = 5 then .provideKey
  else if b.val = 6 then .requestRelay
  else if b.val = 7 then .provideRelay
  else if b.val = 8 then .relay
  else if b.val = 15 then .tooLarge
  else if b.val = 16 then .timeout
  else if b.val = 17 then .relayFailure
  else if b.val = 21 then .earlyHints
  else if b.val = 22 then .redirect
  else if b.val = 31 then .acknowledge
  else if b.val = 32 then .nonAuthorative
  else if b.val = 33 then .alreadyReported
  else if b.val = 41 then .unprocessableEntity
  else if b.val = 42 then .unauthorized
  else if b.val = 43 then .forbidden
  else if b.val = 44 then .notFound
  else if b.val = 51 then .serverError
  else if b.val = 255 then .teapot
  else .custom b

theorem Status.as_u8_lt (s : Status) : s.as_u8 < 256 := by
  cases s <;> first
    | decide
    | exact Fin.isLt _

set_option maxRecDepth 16384 in
/-- Re-serializing a decoded status byte gives the byte back: `Custom`
codes that collide with a standard code decode to the standard constructor,
which carries the same wire byte. -/
theorem Status.as_u8_ofU8 (b : Fin 256) : (Status.ofU8 b).as_u8 = b.val := by
  revert b
  decide

/-! ## `FLESHMessage` (`src/transport/encoding.rs`) -/

/-- The overlay message.  Field order matches the Rust struct declaration
(which fixes the postcard serialization order); `headers` keeps the
`HashMap`'s iteration order. -/
structure FLESHMessage : Type where
  version : Nat
  target : Option Uuid
  sender : Option Uuid
  timestamp : Nat
  headers : List (String × List Nat)
  body : List Nat
  signature : Option (List Nat)
  status : Status
deriving DecidableEq, Repr

/-- Major component of `CARGO_PKG_VERSION`, baked in at compile time. -/
def pkgVersionMajor : Nat := 0

/-- Model of `FLESHMessage::new` (the Rust code takes the current Unix time; the
model threads it as `ts`). -/
def FLESHMessage.new (status : Status) (ts : Nat) : FLESHMessage :=
  { version := pkgVersionMajor
    target := none
    sender := none
    timestamp := ts
    headers := []
    body := []
    signature := none
    status := status }

def FLESHMessage.with_target (m : FLESHMessage) (t : Uuid) : FLESHMessage :=
  { m with target := some t }

def FLESHMessage.with_sender (m : FLESHMessage) (s : Uuid) : FLESHMessage :=
  { m with sender := some s }

def FLESHMessage.with_header (m : FLESHMessage) (k : String) (v : List Nat) :
    FLESHMessage :=
  { m with headers := updateAssoc m.headers k v }

def FLESHMessage.with_body (m : FLESHMessage) (b : List Nat) : FLESHMessage :=
  { m with body := b }

/-- One serialized header entry: name then value. -/
def serHeader (kv : String × List Nat) : List Nat :=
  serString kv.1 ++ serBytes kv.2

/-- Model of `FLESHMessage::serialize` — postcard: fields in declaration order,
integers as varints, options tagged with a presence byte, the header map as
a length-prefixed sequence of entries in iteration order, and the status as
its single `as_u8` byte. -/
def FLESHMessage.serialize (m : FLESHMessage) : List Nat :=
  varint m.version ++
  serOpt serUuid m.target ++
  serOpt serUuid m.sender ++
  varint m.timestamp ++
  varint m.headers.length ++
  (m.headers.map serHeader).flatten ++
  serBytes m.body ++
  serOpt serBytes m.signature ++
  [m.status.as_u8]

/-- Header-sequence decoder (`count` entries). -/
def parseHeaders : Nat → List Nat → Option (List (String × List Nat) × List Nat)
  | 0, l => some ([], l)
  | n + 1, l =>
      match parseString l with
      | none => none
      | some (k, r1) =>
          match parseBytes r1 with
          | none => none
          | some (v, r2) =>
              match parseHeaders n r2 with
              | none => none
              | some (rest, r3) => some ((k, v) :: rest, r3)

/-- Status decoder: one byte, standard-table lookup with `Custom` fallback. -/
def parseStatus (l : List Nat) : Option (Status × List Nat) :=
  match l with
  | [] => none
  | b :: r => some (Status.ofU8 ⟨b % 256, Nat.mod_lt _ (by omega)⟩, r)

/-- Model of collecting decoded header entries into a fresh
`HashMap<String, Vec<u8>>`: repeated `insert`, a later duplicate key
replacing the earlier binding. -/
def hashMapOfList {κ α : Type} [DecidableEq κ] (l : List (κ × α)) :
    List (κ × α) :=
  l.foldl (fun acc kv => updateAssoc acc kv.1 kv.2) []

/-- Model of `FLESHMessage::deserialize` (postcard `from_bytes`; trailing
bytes are ignored, as `postcard::from_bytes` does).  The decoded header
entries are collected into a fresh `std::collections::HashMap`; that map's
iteration order is unspecified (`RandomState` seeds a per-instance random
SipHash), so the model takes the order as the parameter `hashOrder`,
constrained in theorems only to what the standard library guarantees:
iteration visits each collected binding exactly once, i.e. it yields some
permutation of the bindings. -/
def FLESHMessage.deserialize
    (hashOrder : List (String × List Nat) → List (String × List Nat))
    (l : List Nat) : Option FLESHMessage :=
  match parseVarint l with
  | none => none
  | some (version, r1) =>
  match parseOpt parseUuid r1 with
  | none => none
  | some (target, r2) =>
  match parseOpt parseUuid r2 with
  | none => none
  | some (sender, r3) =>
  match parseVarint r3 with
  | none => none
  | some (timestamp, r4) =>
  match parseVarint r4 with
  | none => none
  | some (hcount, r5) =>
  match parseHeaders hcount r5 with
  | none => none
  | some (headers, r6) =>
  match parseBytes r6 with
  | none => none
  | some (body, r7) =>
  match parseOpt parseBytes r7 with
  | none => none
  | some (signature, r8) =>
  match parseStatus r8 with
  | none => none
  | some (status, _) =>
      some { version, target, sender, timestamp,
             headers := hashOrder (hashMapOfList headers), body, signature,
             status }

theorem parseOptUuid_ser (o : Option Uuid) (rest : List Nat) :
    parseOpt parseUuid (serOpt serUuid o ++ rest) = some (o, rest) :=
  parseOpt_serOpt _ _ _ _ parseUuid_serUuid

theorem parseOptBytes_ser (o : Option (List Nat)) (rest : List Nat) :
    parseOpt parseBytes (serOpt serBytes o ++ rest) = some (o, rest) :=
  parseOpt_serOpt _ _ _ _ parseBytes_serBytes

theorem parseHeaders_ser (hs : List (String × List Nat)) (rest : List Nat) :
    parseHeaders hs.length ((hs.map serHeader).flatten ++ rest) =
      some (hs, rest) := by
  induction hs generalizing rest with
  | nil => simp [parseHeaders]
  | cons kv tl ih =>
      obtain ⟨k, v⟩ := kv
      simp only [List.map_cons, List.flatten_cons, List.length_cons,
        parseHeaders, serHeader, List.append_assoc, parseString_serString,
        parseBytes_serBytes, ih]

theorem parseStatus_ser (st : Status) (rest : List Nat) :
    parseStatus (st.as_u8 :: rest) =
      some (Status.ofU8 ⟨st.as_u8, st.as_u8_lt⟩, rest) := by
  have h : (⟨st.as_u8 % 256, Nat.mod_lt _ (by omega)⟩ : Fin 256) =
      (⟨st.as_u8, st.as_u8_lt⟩ : Fin 256) :=
    Fin.ext (Nat.mod_eq_of_lt st.as_u8_lt)
  simp only [parseStatus, h]

/-- Deserializing a serialized message recovers every scalar field; the
headers come back as the rebuilt map's iteration of the collected wire
bindings, and the status is re-canonicalized through the standard-code
table (a `Custom` code that collides with a standard code comes back as
the standard constructor carrying the same byte). -/
theorem FLESHMessage.deserialize_serialize
    (hashOrder : List (String × List Nat) → List (String × List Nat))
    (m : FLESHMessage) :
    FLESHMessage.deserialize hashOrder m.serialize =
      some { m with headers := hashOrder (hashMapOfList m.headers),
                    status := Status.ofU8 ⟨m.status.as_u8, m.status.as_u8_lt⟩ } := by
  obtain ⟨v, tg, sd, ts, hs, bd, sg, st⟩ := m
  simp only [FLESHMessage.serialize, FLESHMessage.deserialize,
    List.append_assoc, parseVarint_varint, parseOptUuid_ser, parseOptBytes_ser,
    parseHeaders_ser, parseBytes_serBytes, parseStatus_ser]

theorem lookupAssoc_append {κ α : Type} [DecidableEq κ]
    (l1 l2 : List (κ × α)) (k : κ) :
    lookupAssoc (l1 ++ l2) k =
      match lookupAssoc l1 k with
      | some v => some v
      | none => lookupAssoc l2 k := by
  induction l1 with
  | nil => simp [lookupAssoc]
  | cons hd tl ih =>
      obtain ⟨k', v'⟩ := hd
      by_cases h : k' = k <;> simp [lookupAssoc, h, ih]

theorem removeAssoc_append {κ α : Type} [DecidableEq κ]
    (l1 l2 : List (κ × α)) (k : κ) :
    removeAssoc (l1 ++ l2) k = removeAssoc l1 k ++ removeAssoc l2 k := by
  induction l1 with
  | nil => simp [removeAssoc]
  | cons hd tl ih =>
      obtain ⟨k', v'⟩ := hd
      by_cases h : k' = k <;> simp [removeAssoc, h, ih]

/-- Serializing the status-canonicalized message gives the original bytes:
the canonical status carries the same wire byte. -/
theorem FLESHMessage.serialize_canon (m : FLESHMessage) :
    FLESHMessage.serialize
        { m with status := Status.ofU8 ⟨m.status.as_u8, m.status.as_u8_lt⟩ } =
      m.serialize := by
  obtain ⟨v, tg, sd, ts, hs, bd, sg, st⟩ := m
  simp only [FLESHMessage.serialize, Status.as_u8_ofU8]

theorem foldl_updateAssoc_fresh {κ α : Type} [DecidableEq κ]
    (l : List (κ × α)) (acc : List (κ × α))
    (hnodup : (l.map Prod.fst).Nodup)
    (hfresh : ∀ k ∈ l.map Prod.fst, lookupAssoc acc k = none) :
    l.foldl (fun a kv => updateAssoc a kv.1 kv.2) acc = acc ++ l := by
  induction l generalizing acc with
  | nil => simp
  | cons hd tl ih =>
      obtain ⟨k, v⟩ := hd
      simp only [List.map_cons, List.nodup_cons] at hnodup
      simp only [List.foldl_cons]
      rw [updateAssoc_fresh acc k v (hfresh k (by simp))]
      rw [ih (acc ++ [(k, v)]) hnodup.2 ?fresh]
      · simp
      case fresh =>
        intro j hj
        have hne : k ≠ j := fun he => hnodup.1 (he ▸ hj)
        rw [lookupAssoc_append, hfresh j (by simp [hj])]
        simp [lookupAssoc, hne]

/-- Collecting a list of bindings with pairwise-distinct keys into a fresh
`HashMap` keeps exactly those bindings. -/
theorem hashMapOfList_of_nodup {κ α : Type} [DecidableEq κ]
    (l : List (κ × α)) (hnodup : (l.map Prod.fst).Nodup) :
    hashMapOfList l = l := by
  have h := foldl_updateAssoc_fresh l [] hnodup (fun k _ => rfl)
  simpa [hashMapOfList] using h

theorem lookupAssoc_eq_some_of_mem_nodup {κ α : Type} [DecidableEq κ]
    (l : List (κ × α)) (k : κ) (v : α)
    (hnodup : (l.map Prod.fst).Nodup) (hm : (k, v) ∈ l) :
    lookupAssoc l k = some v := by
  induction l with
  | nil => simp at hm
  | cons hd tl ih =>
      obtain ⟨k1, v1⟩ := hd
      simp only [List.map_cons, List.nodup_cons] at hnodup
      rcases List.mem_cons.mp hm with h1 | h2
      · injection h1 with ha hb
        subst ha
        subst hb
        simp [lookupAssoc]
      · have hk : k ∈ tl.map Prod.fst := List.mem_map.mpr ⟨(k, v), h2, rfl⟩
        have hne : k1 ≠ k := fun he => hnodup.1 (he ▸ hk)
        simp only [lookupAssoc, if_neg hne]
        exact ih hnodup.2 h2

/-- Association lists with the same bindings and pairwise-distinct keys are
equal as maps: every lookup agrees. -/
theorem lookupAssoc_perm {κ α : Type} [DecidableEq κ]
    (l1 l2 : List (κ × α)) (hperm : List.Perm l1 l2)
    (hnodup : (l2.map Prod.fst).Nodup) (k : κ) :
    lookupAssoc l1 k = lookupAssoc l2 k := by
  cases h1 : lookupAssoc l1 k with
  | some v =>
      have hm : (k, v) ∈ l2 := hperm.mem_iff.mp (lookupAssoc_mem _ _ _ h1)
      exact (lookupAssoc_eq_some_of_mem_nodup l2 k v hnodup hm).symm
  | none =>
      cases h2 : lookupAssoc l2 k with
      | none => rfl
      | some v =>
          have hm : (k, v) ∈ l1 :=
            hperm.mem_iff.mpr (lookupAssoc_mem _ _ _ h2)
          have hk : k ∈ l1.map Prod.fst := List.mem_map.mpr ⟨(k, v), hm, rfl⟩
          have hs := lookupAssoc_isSome_of_mem_keys l1 k hk
          rw [h1] at hs
          simp at hs

/-- C3 (amended): serialization emits header entries in the header map's
stored iteration order — not ascending name order, so map-equal messages
may serialize to different bytes (see the counterexample) — and the
serialize/deserialize roundtrip holds at the value level, not at the byte
level.  For every message whose header names are pairwise distinct (the
`HashMap` invariant) and every iteration order the rebuilt header map may
take — any permutation of the decoded bindings, which is all
`std::collections::HashMap` guarantees — deserializing `serialize m`
recovers every scalar field exactly, with a header map equal to `m`'s as a
map (a permutation of its bindings with identical lookups) and the status
re-canonicalized to the constructor carrying the same wire byte.  Because
the rebuilt map's iteration order is unrelated to `m`'s stored order,
re-serializing the result is not guaranteed to reproduce the original
bytes; the witness exhibits an admissible order under which it does not. -/
theorem C3_roundtrip_amended
    (hashOrder : List (String × List Nat) → List (String × List Nat))
    (m : FLESHMessage)
    (horder : ∀ l, List.Perm (hashOrder l) l)
    (hnodup : (m.headers.map Prod.fst).Nodup) :
    FLESHMessage.deserialize hashOrder m.serialize =
        some { m with headers := hashOrder m.headers,
                      status :=
                        Status.ofU8 ⟨m.status.as_u8, m.status.as_u8_lt⟩ } ∧
      List.Perm (hashOrder m.headers) m.headers ∧
      ∀ k, lookupAssoc (hashOrder m.headers) k = lookupAssoc m.headers k := by
  refine ⟨?_, horder m.headers, ?_⟩
  · rw [FLESHMessage.deserialize_serialize, hashMapOfList_of_nodup _ hnodup]
  · intro k
    exact lookupAssoc_perm _ _ (horder m.headers) hnodup k

/-- Concrete two-header message used to exercise the C3 roundtrip. -/
def c3msg : FLESHMessage :=
  { version := 1, target := none, sender := none, timestamp := 0,
    headers := [("b", [1]), ("a", [2])], body := [], signature := none,
    status := Status.acknowledge }

/-- Witness for C3 at the concrete two-header message `c3msg` and the
admissible iteration order `List.reverse` (a permutation): deserializing
the serialization recovers the message as a map, while re-serializing the
result yields different bytes than the original serialization — the
byte-level roundtrip is not guaranteed by the program. -/
theorem C3_witness :
    (∀ l : List (String × List Nat), List.Perm (List.reverse l) l) ∧
      (c3msg.headers.map Prod.fst).Nodup ∧
      FLESHMessage.deserialize List.reverse c3msg.serialize =
        some { c3msg with headers := List.reverse c3msg.headers,
                          status :=
                            Status.ofU8
                              ⟨c3msg.status.as_u8, c3msg.status.as_u8_lt⟩ } ∧
      List.Perm (List.reverse c3msg.headers) c3msg.headers ∧
      lookupAssoc (List.reverse c3msg.headers) "a" =
        lookupAssoc c3msg.headers "a" ∧
      (FLESHMessage.deserialize List.reverse c3msg.serialize).map
          FLESHMessage.serialize ≠
        some c3msg.serialize := by
  have h := C3_roundtrip_amended List.reverse c3msg
    (fun l => List.reverse_perm l) (by decide)
  exact ⟨fun l => List.reverse_perm l, by decide, h.1, h.2.1, h.2.2 "a",
    by decide⟩

/-- C3 counterexample: two messages that are equal field-for-field — the
header maps hold exactly the same bindings, merely in a different iteration
order — serialize to different byte strings, and the entries are emitted in
stored order (`"b"` before `"a"`), not in ascending name order.  This
refutes the claim that serialization is a deterministic function of the
message value with entries in ascending name order. -/
theorem C3_order_counterexample :
    List.Perm
        (FLESHMessage.mk 1 none none 0 [("b", [1]), ("a", [2])] [] none
          Status.acknowledge).headers
        (FLESHMessage.mk 1 none none 0 [("a", [2]), ("b", [1])] [] none
          Status.acknowledge).headers ∧
      FLESHMessage.serialize
          (FLESHMessage.mk 1 none none 0 [("b", [1]), ("a", [2])] [] none
            Status.acknowledge) ≠
        FLESHMessage.serialize
          (FLESHMessage.mk 1 none none 0 [("a", [2]), ("b", [1])] [] none
            Status.acknowledge) := by
  constructor
  · decide
  · decide

/-! ## Crypto envelope (`src/transport/encoding.rs`) -/

/-- Model of `MessageError` from `src/transport/encoding.rs`. -/
inductive MessageError : Type
  | serializationError
  | deserializationError
  | missingSignature
  | invalidSignature
  | encryptionError
  | decryptionError
  | missingEncryptionData
  | invalidEncryptionData
deriving DecidableEq, Repr

/-- Model of `FLESHMessage::sign`: stamp the sender, clear the signature, sign the
canonical serialization of that unsigned form, and attach the signature.
`sigSign` is `ed25519_dalek::SigningKey::try_sign` (an external primitive,
passed in as a function of the signing key and the message bytes). -/
def FLESHMessage.sign (sigSign : Nat → List Nat → List Nat) (meId : Uuid)
    (key : Nat) (m : FLESHMessage) : FLESHMessage :=
  let unsigned := { m with sender := some meId, signature := none }
  { unsigned with signature := some (sigSign key unsigned.serialize) }

/-- Model of `FLESHMessage::verify`: take the attached signature (64 bytes required
by `Signature::from_bytes`), re-serialize the message with the signature
field cleared, and check with `verify_strict` (`sigVerify`, an external
primitive of the verifying key, message bytes and signature bytes). -/
def FLESHMessage.verify (sigVerify : Nat → List Nat → List Nat → Bool)
    (key : Nat) (m : FLESHMessage) : Except MessageError Unit :=
  match m.signature with
  | none => .error .missingSignature
  | some sb =>
      let unsigned := { m with signature := none }
      if sb.length = 64 then
        if sigVerify key unsigned.serialize sb then .ok ()
        else .error .invalidSignature
      else .error .invalidSignature

/-- C1: for every message and every keypair, verifying the signed message
against the signer's verifying key succeeds.  The Ed25519 primitive is
external; it enters through `sigSign` / `sigVerify` / `vkOf` constrained
exactly by its documented contract at the signed bytes (`hcorrect`: a
signature by `k` over bytes `d` verifies under `vkOf k`, and `hlen`:
signatures are 64 bytes).  The theorem is the envelope property: `sign`
and `verify` serialize the *same* unsigned form, so verification reaches
`verify_strict` with matching inputs. -/
theorem C1_sign_verify_roundtrip
    (sigSign : Nat → List Nat → List Nat)
    (sigVerify : Nat → List Nat → List Nat → Bool)
    (vkOf : Nat → Nat) (meId : Uuid) (k : Nat) (m : FLESHMessage)
    (hlen : (sigSign k
        (FLESHMessage.serialize
          { m with sender := some meId, signature := none })).length = 64)
    (hcorrect : sigVerify (vkOf k)
        (FLESHMessage.serialize { m with sender := some meId, signature := none })
        (sigSign k
          (FLESHMessage.serialize
            { m with sender := some meId, signature := none })) = true) :
    FLESHMessage.verify sigVerify (vkOf k)
        (FLESHMessage.sign sigSign meId k m) = .ok () := by
  obtain ⟨v, tg, sd, ts, hs, bd, sg, st⟩ := m
  simp only [FLESHMessage.sign, FLESHMessage.verify] at *
  simp [hlen, hcorrect]

/-- Witness for C1 at a concrete toy signature scheme (63 zero bytes and a
checksum byte) and a concrete message. -/
theorem C1_witness :
    FLESHMessage.verify
        (fun vk d s => decide (s = List.replicate 63 0 ++ [(vk + d.sum) % 256]))
        ((fun x => x) 7)
        (FLESHMessage.sign
          (fun key d => List.replicate 63 0 ++ [(key + d.sum) % 256]) 0 7
          (FLESHMessage.new .acknowledge 0)) = .ok () :=
  C1_sign_verify_roundtrip
    (fun key d => List.replicate 63 0 ++ [(key + d.sum) % 256])
    (fun vk d s => decide (s = List.replicate 63 0 ++ [(vk + d.sum) % 256]))
    (fun x => x) 0 7 (FLESHMessage.new .acknowledge 0)
    (by decide) (by decide)

/-- Model of `FLESHMessage::encrypt_body`.  An empty body is returned unchanged
(the Rust early-return).  Otherwise: derive the shared secret from a fresh
ephemeral X25519 secret against the target's Ed25519 verifying-key bytes
used directly as an X25519 public key, seal the body, and insert the
`ephemeral_key` and `nonce` headers.  External primitives: `dh` (X25519
`diffie_hellman` of a secret against public-key bytes, yielding the shared
secret bytes used as the ChaCha20-Poly1305 key), `pubOf`
(`X25519PublicKey::from(&secret)` as bytes), `aeadEnc`
(`ChaCha20Poly1305::encrypt`).  The RNG draws (`eph`, `nonce`) are threaded
as parameters. -/
def FLESHMessage.encrypt_body (dh : Nat → List Nat → List Nat)
    (pubOf : Nat → List Nat) (aeadEnc : List Nat → List Nat → List Nat → List Nat)
    (eph : Nat) (nonce : List Nat) (m : FLESHMessage) (targetKey : List Nat) :
    FLESHMessage :=
  if m.body = [] then m
  else
    { m with
      body := aeadEnc (dh eph targetKey) nonce m.body
      headers :=
        updateAssoc (updateAssoc m.headers "ephemeral_key" (pubOf eph))
          "nonce" nonce }

/-- Model of `FLESHMessage::decrypt_body`: read the `ephemeral_key` (32 bytes
required) and `nonce` headers, derive the shared secret from our signing
key bytes used directly as an X25519 static secret, open the body, and on
success remove the two headers.  `aeadDec` is `ChaCha20Poly1305::decrypt`
(`none` = AEAD failure ⇒ `DecryptionError`). -/
def FLESHMessage.decrypt_body (dh : Nat → List Nat → List Nat)
    (aeadDec : List Nat → List Nat → List Nat → Option (List Nat))
    (m : FLESHMessage) (myKey : Nat) : Except MessageError FLESHMessage :=
  match lookupAssoc m.headers "ephemeral_key" with
  | none => .error .missingEncryptionData
  | some ek =>
  match lookupAssoc m.headers "nonce" with
  | none => .error .missingEncryptionData
  | some nonce =>
  if ek.length = 32 then
    match aeadDec (dh myKey ek) nonce m.body with
    | none => .error .decryptionError
    | some pt =>
        .ok { m with
              body := pt
              headers :=
                removeAssoc (removeAssoc m.headers "ephemeral_key") "nonce" }
  else .error .invalidEncryptionData

deriving instance DecidableEq for Except

/-- Flip bit `i` of a byte string (byte `i / 8`, bit `i % 8`). -/
def flipBit (i : Nat) : List Nat → List Nat
  | [] => []
  | b :: r => if i < 8 then (b ^^^ (1 <<< i)) :: r else b :: flipBit (i - 8) r

/-- C2 counterexample: for a message with a target set but an *empty* body,
`encrypt_body` is the identity (the Rust early-return inserts no headers),
so `decrypt_body(encrypt_body(m, t_pub), t_priv)` fails with
`MissingEncryptionData` instead of returning `m`.  Instantiated with a
concrete toy cipher: the failure happens before any primitive is used. -/
theorem C2_empty_body_counterexample :
    FLESHMessage.decrypt_body
        (fun a p => [(a * p.sum) % 256])
        (fun key n c =>
          if c = [] then none
          else if c.getLast? = some ((key.sum + n.sum + c.dropLast.sum) % 256)
            then some c.dropLast else none)
        (FLESHMessage.encrypt_body
          (fun a p => [(a * p.sum) % 256])
          (fun e => List.replicate 31 0 ++ [e % 256])
          (fun key n b => b ++ [(key.sum + n.sum + b.sum) % 256])
          5 (List.replicate 12 1)
          { FLESHMessage.new .acknowledge 0 with target := some 9 }
          (List.replicate 31 0 ++ [3]))
        3 = .error .missingEncryptionData := by
  decide


/-- C2 (amended): for every message with a target set, a *nonempty* body,
and no pre-existing `ephemeral_key`/`nonce` headers, decrypting the
encrypted message with the target's secret returns the original message
(body restored, both inserted headers removed); and a message whose
ciphertext body or nonce header has one bit flipped decrypts to
`DecryptionError` whenever the AEAD rejects the tampered input (the
ChaCha20-Poly1305 authentication guarantee).  The X25519/AEAD primitives
are external and enter as parameters: `hdh` is precisely the key-agreement
identity the Rust code relies on when it feeds Ed25519 key bytes to X25519,
and `haead` is the AEAD's roundtrip contract at these inputs. -/
theorem C2_encrypt_decrypt_amended
    (dh : Nat → List Nat → List Nat) (pubOf : Nat → List Nat)
    (aeadEnc : List Nat → List Nat → List Nat → List Nat)
    (aeadDec : List Nat → List Nat → List Nat → Option (List Nat))
    (eph s : Nat) (nonce : List Nat) (targetKey : List Nat) (m : FLESHMessage)
    (htarget : m.target.isSome = true)
    (hbody : m.body ≠ [])
    (hek : lookupAssoc m.headers "ephemeral_key" = none)
    (hnonce : lookupAssoc m.headers "nonce" = none)
    (hpublen : (pubOf eph).length = 32)
    (hdh : dh s (pubOf eph) = dh eph targetKey)
    (haead : aeadDec (dh eph targetKey) nonce
        (aeadEnc (dh eph targetKey) nonce m.body) = some m.body) :
    FLESHMessage.decrypt_body dh aeadDec
        (FLESHMessage.encrypt_body dh pubOf aeadEnc eph nonce m targetKey) s
      = .ok m ∧
    (∀ i, i < 8 * (aeadEnc (dh eph targetKey) nonce m.body).length →
      aeadDec (dh eph targetKey) nonce
          (flipBit i (aeadEnc (dh eph targetKey) nonce m.body)) = none →
      FLESHMessage.decrypt_body dh aeadDec
          { FLESHMessage.encrypt_body dh pubOf aeadEnc eph nonce m targetKey
            with body := flipBit i (aeadEnc (dh eph targetKey) nonce m.body) } s
        = .error .decryptionError) ∧
    (∀ i, i < 8 * nonce.length →
      aeadDec (dh eph targetKey) (flipBit i nonce)
          (aeadEnc (dh eph targetKey) nonce m.body) = none →
      FLESHMessage.decrypt_body dh aeadDec
          { FLESHMessage.encrypt_body dh pubOf aeadEnc eph nonce m targetKey
              with headers :=
                updateAssoc (FLESHMessage.encrypt_body dh pubOf aeadEnc eph
                  nonce m targetKey).headers "nonce" (flipBit i nonce) } s
        = .error .decryptionError) := by
  obtain ⟨v, tg, sd, ts, hs, bd, sg, st⟩ := m
  simp only at hbody hek hnonce haead
  have hekne : ("ephemeral_key" : String) ≠ "nonce" := by decide
  have hfresh1 : updateAssoc hs "ephemeral_key" (pubOf eph) =
      hs ++ [("ephemeral_key", pubOf eph)] := updateAssoc_fresh hs _ _ hek
  have h2 : lookupAssoc (hs ++ [("ephemeral_key", pubOf eph)]) "nonce" =
      none := by
    rw [lookupAssoc_append, hnonce]
    simp [lookupAssoc, hekne]
  have hH2 : updateAssoc (updateAssoc hs "ephemeral_key" (pubOf eph))
      "nonce" nonce =
      hs ++ [("ephemeral_key", pubOf eph), ("nonce", nonce)] := by
    rw [hfresh1, updateAssoc_fresh _ _ _ h2]
    simp
  have hlek : ∀ n2 : List Nat, lookupAssoc
      (hs ++ [("ephemeral_key", pubOf eph), ("nonce", n2)])
      "ephemeral_key" = some (pubOf eph) := by
    intro n2
    rw [lookupAssoc_append, hek]
    simp [lookupAssoc]
  have hlnon : ∀ n2 : List Nat, lookupAssoc
      (hs ++ [("ephemeral_key", pubOf eph), ("nonce", n2)])
      "nonce" = some n2 := by
    intro n2
    rw [lookupAssoc_append, hnonce]
    simp [lookupAssoc, hekne]
  have hrem : removeAssoc
      (removeAssoc (hs ++ [("ephemeral_key", pubOf eph), ("nonce", nonce)])
        "ephemeral_key") "nonce" = hs := by
    rw [removeAssoc_append, removeAssoc_of_lookup_none _ _ hek]
    have h1 : removeAssoc
        ([("ephemeral_key", pubOf eph), ("nonce", nonce)] :
          List (String × List Nat)) "ephemeral_key" = [("nonce", nonce)] := by
      simp [removeAssoc, hekne]
    rw [h1, removeAssoc_append, removeAssoc_of_lookup_none _ _ hnonce]
    simp [removeAssoc]
  refine ⟨?_, ?_, ?_⟩
  · simp only [FLESHMessage.encrypt_body, if_neg hbody,
      FLESHMessage.decrypt_body, hH2, hlek, hlnon, hpublen, hdh, haead, hrem]
    simp
  · intro i _ hrej
    simp only [FLESHMessage.encrypt_body, if_neg hbody,
      FLESHMessage.decrypt_body, hH2, hlek, hlnon, hpublen, hdh, hrej]
    simp
  · intro i _ hrej
    have hupd : updateAssoc (updateAssoc
        (updateAssoc hs "ephemeral_key" (pubOf eph)) "nonce" nonce) "nonce"
        (flipBit i nonce) =
        hs ++ [("ephemeral_key", pubOf eph), ("nonce", flipBit i nonce)] := by
      rw [updateAssoc_updateAssoc, hfresh1, updateAssoc_fresh _ _ _ h2]
      simp
    simp only [FLESHMessage.encrypt_body, if_neg hbody,
      FLESHMessage.decrypt_body, hupd, hlek, hlnon, hpublen, hdh, hrej]
    simp

/-- Concrete toy X25519: the shared secret is one byte, and the toy
public key of a secret is 31 zero bytes and the secret byte, so the
key-agreement identity the code relies on holds. -/
def toyDh (a : Nat) (p : List Nat) : List Nat := [(a * p.sum) % 256]

def toyPub (e : Nat) : List Nat := List.replicate 31 0 ++ [e % 256]

/-- Concrete toy AEAD: the ciphertext is the plaintext followed by a
one-byte checksum tag over key, nonce and plaintext, so every single-bit
flip of ciphertext or nonce is rejected. -/
def toyAeadEnc (key n b : List Nat) : List Nat :=
  b ++ [(key.sum + n.sum + b.sum) % 256]

def toyAeadDec (key n c : List Nat) : Option (List Nat) :=
  if c = [] then none
  else if c.getLast? = some ((key.sum + n.sum + c.dropLast.sum) % 256) then
    some c.dropLast
  else none

def toyMsg : FLESHMessage :=
  { FLESHMessage.new .acknowledge 0 with target := some 9, body := [7] }

def toyTargetKey : List Nat := List.replicate 31 0 ++ [3]

def toyNonce : List Nat := List.replicate 12 1

def toyCt : List Nat := toyAeadEnc (toyDh 5 toyTargetKey) toyNonce [7]

def toyEncMsg : FLESHMessage :=
  FLESHMessage.encrypt_body toyDh toyPub toyAeadEnc 5 toyNonce toyMsg
    toyTargetKey

/-- Witness for C2 at the concrete toy cipher: the roundtrip returns the
original message, and flipping bit 0 of the ciphertext or of the nonce
header yields `DecryptionError`. -/
theorem C2_witness :
    FLESHMessage.decrypt_body toyDh toyAeadDec toyEncMsg 3 = .ok toyMsg ∧
    FLESHMessage.decrypt_body toyDh toyAeadDec
        { toyEncMsg with body := flipBit 0 toyCt } 3 =
      .error .decryptionError ∧
    FLESHMessage.decrypt_body toyDh toyAeadDec
        { toyEncMsg with
            headers := updateAssoc toyEncMsg.headers "nonce"
              (flipBit 0 toyNonce) } 3 =
      .error .decryptionError := by
  have h := C2_encrypt_decrypt_amended toyDh toyPub toyAeadEnc toyAeadDec
    5 3 toyNonce toyTargetKey toyMsg (by decide) (by decide) (by decide)
    (by decide) (by decide) (by decide) (by decide)
  exact ⟨h.1, h.2.1 0 (by decide) (by decide), h.2.2 0 (by decide) (by decide)⟩

/-! ## Peer table (`NodeRelationshipMap`, `crates/flesh/src/transport/network.rs`) -/

def RESOLUTION_TTL_SECS : Nat := 5000

inductive NodeRelation : Type
  | local
  | relay (via : Uuid)
deriving DecidableEq, Repr

/-- Peer table: id ↦ (last-seen instant, relation, verifying key).
Verifying keys are opaque (`Nat`): no operation below inspects them. -/
abbrev NodeRelationshipMap : Type := List (Uuid × (Nat × NodeRelation × Nat))

/-- Model of `NodeRelationshipMap::pong`: if present, set `last_seen = now` and
`relation = Local`, keeping the stored key. -/
def NodeRelationshipMap.pong (now : Nat) (id : Uuid)
    (m : NodeRelationshipMap) : NodeRelationshipMap :=
  match lookupAssoc m id with
  | some e => updateAssoc m id (now, NodeRelation.local, e.2.2)
  | none => m

/-- Model of `NodeRelationshipMap::announced`: refresh an existing entry (keeping
its relation, recording the new key), or seed a new entry with `last_seen`
one full TTL in the past (`Instant::now().checked_sub(TTL).unwrap()`;
theorems that reach this branch assume `TTL ≤ now`, as the Rust unwrap
does). -/
def NodeRelationshipMap.announced (now : Nat) (id : Uuid) (key : Nat)
    (m : NodeRelationshipMap) : NodeRelationshipMap :=
  match lookupAssoc m id with
  | some e => updateAssoc m id (now, e.2.1, key)
  | none =>
      updateAssoc m id
        (now - RESOLUTION_TTL_SECS, NodeRelation.local, key)

/-- Model of `NodeRelationshipMap::relayed`: on a `Local` entry the relation is kept
`Local` (no downgrade) but the entry is re-inserted with
`last_seen = Instant::now()`; otherwise the relation becomes `Relay{via}`.
Absent entries are ignored. -/
def NodeRelationshipMap.relayed (now : Nat) (id via : Uuid)
    (m : NodeRelationshipMap) : NodeRelationshipMap :=
  match lookupAssoc m id with
  | some e =>
      let relation :=
        match e.2.1 with
        | NodeRelation.local => NodeRelation.local
        | _ => NodeRelation.relay via
      updateAssoc m id (now, relation, e.2.2)
  | none => m

/-- Model of `NodeRelationshipMap::knows`: entry exists and is fresh. -/
def NodeRelationshipMap.knows (now : Nat) (id : Uuid)
    (m : NodeRelationshipMap) : Bool :=
  match lookupAssoc m id with
  | some e => decide (now - e.1 < RESOLUTION_TTL_SECS)
  | none => false

/-- Model of `NodeRelationshipMap::key`: the stored key iff fresh. -/
def NodeRelationshipMap.key (now : Nat) (id : Uuid)
    (m : NodeRelationshipMap) : Option Nat :=
  match lookupAssoc m id with
  | some e =>
      if now - e.1 < RESOLUTION_TTL_SECS then some e.2.2 else none
  | none => none

/-- Model of `NodeRelationshipMap::can_relay`: fresh and `Local`. -/
def NodeRelationshipMap.can_relay (now : Nat) (id : Uuid)
    (m : NodeRelationshipMap) : Bool :=
  match lookupAssoc m id with
  | some e =>
      decide (now - e.1 < RESOLUTION_TTL_SECS) &&
        decide (e.2.1 = NodeRelation.local)
  | none => false

/-- Model of `NodeRelationshipMap::get`: the relation and key iff fresh. -/
def NodeRelationshipMap.get (now : Nat) (id : Uuid)
    (m : NodeRelationshipMap) : Option (NodeRelation × Nat) :=
  match lookupAssoc m id with
  | some e =>
      if now - e.1 < RESOLUTION_TTL_SECS then some (e.2.1, e.2.2) else none
  | none => none

/-! ## Routing messages (`crates/flesh/src/transport/network.rs`) -/

inductive RoutingMessage : Type
  | announce (u : Uuid)
  | ping (toId fromId : Uuid)
  | pong (toId fromId : Uuid)
  | requestKey (u : Uuid)
  | provideKey (u : Uuid) (key : List Nat)
  | requestRelayCapability (u : Uuid)
  | provideRelayCapability (fromId toId : Uuid) (status : Bool)
  | relay (u : Uuid) (msg : FLESHMessage)
  | relayFailure (u : Uuid) (reason : String)
deriving DecidableEq, Repr

/-- Model of `RoutingMessage::status` — note `Announce` maps to `Status::Acknowledge`
(code 31), not `Status::Announce` (code 1). -/
def RoutingMessage.status : RoutingMessage → Status
  | .announce _ => .acknowledge
  | .requestKey _ => .requestKey
  | .provideKey _ _ => .provideKey
  | .requestRelayCapability _ => .requestRelay
  | .provideRelayCapability _ _ _ => .provideRelay
  | .relay _ _ => .relay
  | .relayFailure _ _ => .relayFailure
  | .ping _ _ => .ping
  | .pong _ _ => .pong

/-- Model of `RoutingMessage::to_message` (header values: `Uuid` as its 16 bytes,
`bool` via `to_string`, strings as UTF-8). -/
def RoutingMessage.to_message (rm : RoutingMessage) (ts : Nat) :
    FLESHMessage :=
  let message := FLESHMessage.new rm.status ts
  match rm with
  | .announce u => message.with_header "self" (uuidBytes u)
  | .requestKey u => message.with_header "for" (uuidBytes u)
  | .provideKey u key =>
      (message.with_header "for" (uuidBytes u)).with_header "key" key
  | .requestRelayCapability u => message.with_header "for" (uuidBytes u)
  | .provideRelayCapability f t status =>
      (((message.with_header "from" (uuidBytes f)).with_header "to"
        (uuidBytes t)).with_header "status"
          (strBytes (if status then "true" else "false")))
  | .relay u msg =>
      ((message.with_header "for" (uuidBytes u)).with_body msg.serialize)
  | .relayFailure u reason =>
      ((message.with_header "for" (uuidBytes u)).with_body (strBytes reason))
  | .ping t f =>
      (message.with_header "to" (uuidBytes t)).with_header "from"
        (uuidBytes f)
  | .pong t f =>
      (message.with_header "to" (uuidBytes t)).with_header "from"
        (uuidBytes f)

/-- The `uuid` helper inside `from_message`: read a header, require
exactly 16 bytes, rebuild the id. -/
def headerUuid (m : FLESHMessage) (h : String) : Except String Uuid :=
  match lookupAssoc m.headers h with
  | none => .error "missing header"
  | some bytes =>
      if bytes.length = 16 then
        .ok ⟨bytesToNat bytes % 2 ^ 128, Nat.mod_lt _ (by positivity)⟩
      else .error "invalid uuid length"

/-- Model of `str::parse::<bool>`: exactly `"true"` or `"false"`. -/
def parseBoolBytes (b : List Nat) : Except String Bool :=
  if b = strBytes "true" then .ok true
  else if b = strBytes "false" then .ok false
  else .error "invalid bool"

/-- Model of `String::from_utf8` on a body (ASCII model). -/
def stringOfBytes (b : List Nat) : String := String.mk (b.map Char.ofNat)

/-- Model of `RoutingMessage::from_message`, exactly as written in the source:
`Status::RequestRelay` is parsed into `RequestKey`; `Status::Pong` is
parsed into `Ping`; `Status::ProvideKey` reads its key from the *body*;
non-routing statuses (including `Acknowledge`, which `Announce` serializes
to) yield `Ok(None)`.  The `Relay` arm deserializes the nested message in
the body, so it threads the rebuilt header map's unspecified iteration
order as `hashOrder`. -/
def RoutingMessage.from_message
    (hashOrder : List (String × List Nat) → List (String × List Nat))
    (m : FLESHMessage) :
    Except String (Option RoutingMessage) :=
  match m.status with
  | .announce => (headerUuid m "for").map (fun u => some (.announce u))
  | .requestKey => (headerUuid m "for").map (fun u => some (.requestKey u))
  | .provideKey =>
      (headerUuid m "for").map (fun u => some (.provideKey u m.body))
  | .requestRelay =>
      (headerUuid m "for").map (fun u => some (.requestKey u))
  | .provideRelay =>
      match headerUuid m "from" with
      | .error e => .error e
      | .ok f =>
      match headerUuid m "to" with
      | .error e => .error e
      | .ok t =>
      match lookupAssoc m.headers "status" with
      | none => .error "missing status header"
      | some sb =>
      match parseBoolBytes sb with
      | .error e => .error e
      | .ok b => .ok (some (.provideRelayCapability f t b))
  | .relay =>
      match headerUuid m "for" with
      | .error e => .error e
      | .ok u =>
      match FLESHMessage.deserialize hashOrder m.body with
      | none => .error "nested deserialize failed"
      | some inner => .ok (some (.relay u inner))
  | .relayFailure =>
      (headerUuid m "for").map
        (fun u => some (.relayFailure u (stringOfBytes m.body)))
  | .ping =>
      match headerUuid m "to" with
      | .error e => .error e
      | .ok t =>
      match headerUuid m "from" with
      | .error e => .error e
      | .ok f => .ok (some (.ping t f))
  | .pong =>
      match headerUuid m "to" with
      | .error e => .error e
      | .ok t =>
      match headerUuid m "from" with
      | .error e => .error e
      | .ok f => .ok (some (.ping t f))
  | _ => .ok none

/-- C4 evidence (code bug): evaluating `from_message ∘ to_message` at
concrete routing messages shows the §4.D table is not implemented: a
`RequestRelay` wire message parses back as `RequestKey`; an `Announce`
serializes with status `Acknowledge` and header `self`, so it does not
parse as a routing message at all (`Ok(None)`); a `Pong` parses back as a
`Ping`; and `ProvideKey`'s key bytes are written to a header but read back
from the (empty) body.  The divergences hold for every iteration order the
nested deserializer's rebuilt header map could take (none of these wire
messages reaches the nested `Relay` deserialization). -/
theorem C4_roundtrip_divergence :
    ∀ hashOrder : List (String × List Nat) → List (String × List Nat),
    RoutingMessage.from_message hashOrder
        (RoutingMessage.to_message (.requestRelayCapability 5) 0) =
      .ok (some (.requestKey 5)) ∧
    RoutingMessage.from_message hashOrder
        (RoutingMessage.to_message (.announce 5) 0) =
      .ok none ∧
    RoutingMessage.from_message hashOrder
        (RoutingMessage.to_message (.pong 5 6) 0) =
      .ok (some (.ping 5 6)) ∧
    RoutingMessage.from_message hashOrder
        (RoutingMessage.to_message (.provideKey 5 [1]) 0) =
      .ok (some (.provideKey 5 [])) := by
  intro hashOrder
  refine ⟨?_, ?_, ?_, ?_⟩ <;> rfl

/-! ## Routing engine step (`Network::handle_requests`) -/

/-- One step of the `handle_requests` event loop on a routing message:
returns the updated peer table, the optional reply to send, and the
optional message emitted to the application stream (the `Relay` unwrap).
External `ed25519_dalek` conversions enter as `vkBytes`
(`VerifyingKey::as_bytes`) and `vkDecode` (`VerifyingKey::from_bytes`);
`meKeyBytes` is `me.key().as_bytes()`.  Arms with a false guard fall
through to the wildcard (no table change, no reply), as the Rust `match`
does. -/
def handleRequest (vkBytes : Nat → List Nat)
    (vkDecode : List Nat → Option Nat) (meId : Uuid) (meKeyBytes : List Nat)
    (now : Nat) (rm : RoutingMessage) (nodes : NodeRelationshipMap) :
    NodeRelationshipMap × Option RoutingMessage × Option FLESHMessage :=
  match rm with
  | .announce u =>
      (nodes,
        if NodeRelationshipMap.knows now u nodes then none
        else some (.requestKey u), none)
  | .ping t f =>
      (nodes, if t = meId then some (.pong f t) else none, none)
  | .pong t f =>
      if t = meId then (NodeRelationshipMap.pong now f nodes, none, none)
      else (nodes, none, none)
  | .requestKey u =>
      if u = meId then (nodes, some (.provideKey meId meKeyBytes), none)
      else
        (nodes,
          (NodeRelationshipMap.key now u nodes).map
            (fun k => .provideKey u (vkBytes k)), none)
  | .provideKey u key =>
      match vkDecode key with
      | some k => (NodeRelationshipMap.announced now u k nodes, none, none)
      | none => (nodes, none, none)
  | .requestRelayCapability u =>
      if NodeRelationshipMap.can_relay now u nodes then
        (nodes, some (.provideRelayCapability meId u true), none)
      else (nodes, none, none)
  | .provideRelayCapability f t status =>
      if status then (NodeRelationshipMap.relayed now f t nodes, none, none)
      else (nodes, none, none)
  | .relay u msg =>
      if u = meId then (nodes, none, some msg) else (nodes, none, none)
  | .relayFailure _ _ => (nodes, none, none)

/-- C5: on a `Pong` routing message with `to = me`, the handler calls
`peer_table.pong(from)` and nothing else: no reply is sent, nothing is
emitted, and if the table has an entry for `from`, its relation becomes
`Local`, its `last_seen` becomes `now`, and its key is kept. -/
theorem C5_pong_handler (vkBytes : Nat → List Nat)
    (vkDecode : List Nat → Option Nat) (meId : Uuid) (meKeyBytes : List Nat)
    (now : Nat) (toId fromId : Uuid) (nodes : NodeRelationshipMap)
    (t : Nat) (rel : NodeRelation) (k : Nat)
    (hto : toId = meId)
    (hentry : lookupAssoc nodes fromId = some (t, rel, k)) :
    handleRequest vkBytes vkDecode meId meKeyBytes now (.pong toId fromId)
        nodes =
      (NodeRelationshipMap.pong now fromId nodes, none, none) ∧
    lookupAssoc (NodeRelationshipMap.pong now fromId nodes) fromId =
      some (now, NodeRelation.local, k) := by
  subst hto
  constructor
  · simp [handleRequest]
  · simp [NodeRelationshipMap.pong, hentry, lookupAssoc_updateAssoc_self]

/-- Witness for C5: a concrete table in which peer 2 is known via relay;
after the Pong it is `Local` with `last_seen = 100`. -/
theorem C5_witness :
    handleRequest (fun k => [k]) (fun _ => none) 1 [] 100 (.pong 1 2)
        [(2, (0, NodeRelation.relay 3, 9))] =
      (NodeRelationshipMap.pong 100 2 [(2, (0, NodeRelation.relay 3, 9))],
        none, none) ∧
    lookupAssoc
        (NodeRelationshipMap.pong 100 2 [(2, (0, NodeRelation.relay 3, 9))])
        2 = some (100, NodeRelation.local, 9) :=
  C5_pong_handler (fun k => [k]) (fun _ => none) 1 [] 100 1 2
    [(2, (0, NodeRelation.relay 3, 9))] 0 (NodeRelation.relay 3) 9 rfl
    (by decide)

/-- C6 counterexample: `relayed` on a `Local` entry is *not* a no-op — the
entry is re-inserted with `last_seen = now`, so a table whose only entry is
`(id 0, last_seen 0, Local, key 7)` changes under `relayed(0, via 1)` at
`now = 100`: its `last_seen` becomes 100. -/
theorem C6_relayed_counterexample :
    NodeRelationshipMap.relayed 100 0 1 [(0, (0, NodeRelation.local, 7))] ≠
        [(0, (0, NodeRelation.local, 7))] ∧
      NodeRelationshipMap.relayed 100 0 1 [(0, (0, NodeRelation.local, 7))] =
        [(0, (100, NodeRelation.local, 7))] := by
  constructor
  · decide
  · decide

/-- C6 (amended): `relayed(id, via)` on a `Local` entry never downgrades:
the relation stays `Local`, the stored key is kept, and every other entry
of the table is untouched — but the entry's `last_seen` is refreshed to
`now` (it is re-inserted with `Instant::now()`), rather than left
unchanged as the claim stated. -/
theorem C6_relayed_local_amended (now : Nat) (id via : Uuid)
    (nodes : NodeRelationshipMap) (t : Nat) (k : Nat)
    (h : lookupAssoc nodes id = some (t, NodeRelation.local, k)) :
    lookupAssoc (NodeRelationshipMap.relayed now id via nodes) id =
        some (now, NodeRelation.local, k) ∧
      ∀ j, j ≠ id →
        lookupAssoc (NodeRelationshipMap.relayed now id via nodes) j =
          lookupAssoc nodes j := by
  constructor
  · simp [NodeRelationshipMap.relayed, h, lookupAssoc_updateAssoc_self]
  · intro j hj
    simp only [NodeRelationshipMap.relayed, h]
    exact lookupAssoc_updateAssoc_ne nodes id j _ hj

/-- Witness for C6 (amended) at a concrete two-entry table. -/
theorem C6_witness :
    lookupAssoc
        (NodeRelationshipMap.relayed 100 0 1
          [(0, (0, NodeRelation.local, 7)), (5, (3, NodeRelation.relay 2, 8))])
        0 = some (100, NodeRelation.local, 7) ∧
      ∀ j, j ≠ 0 →
        lookupAssoc
            (NodeRelationshipMap.relayed 100 0 1
              [(0, (0, NodeRelation.local, 7)),
                (5, (3, NodeRelation.relay 2, 8))]) j =
          lookupAssoc
            [(0, (0, NodeRelation.local, 7)), (5, (3, NodeRelation.relay 2, 8))]
            j :=
  C6_relayed_local_amended 100 0 1
    [(0, (0, NodeRelation.local, 7)), (5, (3, NodeRelation.relay 2, 8))] 0 7
    (by decide)

/-! ## Peer-table operation sequences (for the freshness claim C7) -/

/-- A peer-table mutation together with the id it addresses. -/
inductive TableOp : Type
  | pongO (id : Uuid)
  | announcedO (id : Uuid) (key : Nat)
  | relayedO (id via : Uuid)
deriving DecidableEq, Repr

def TableOp.target : TableOp → Uuid
  | .pongO i => i
  | .announcedO i _ => i
  | .relayedO i _ => i

/-- Apply one timed mutation. -/
def applyOp (p : Nat × TableOp) (m : NodeRelationshipMap) :
    NodeRelationshipMap :=
  match p.2 with
  | .pongO i => NodeRelationshipMap.pong p.1 i m
  | .announcedO i k => NodeRelationshipMap.announced p.1 i k m
  | .relayedO i v => NodeRelationshipMap.relayed p.1 i v m

def applyOps (ops : List (Nat × TableOp)) (m : NodeRelationshipMap) :
    NodeRelationshipMap :=
  ops.foldl (fun acc p => applyOp p acc) m

/-- A mutation addressed to a different id leaves this id's entry alone. -/
theorem applyOp_preserves (p : Nat × TableOp) (m : NodeRelationshipMap)
    (j : Uuid) (hj : p.2.target ≠ j) :
    lookupAssoc (applyOp p m) j = lookupAssoc m j := by
  obtain ⟨t, op⟩ := p
  cases op with
  | pongO i =>
      simp only [applyOp, NodeRelationshipMap.pong]
      cases h : lookupAssoc m i with
      | none => rfl
      | some e => exact lookupAssoc_updateAssoc_ne m i j _ (fun hh => hj hh.symm)
  | announcedO i k =>
      simp only [applyOp, NodeRelationshipMap.announced]
      cases h : lookupAssoc m i with
      | none => exact lookupAssoc_updateAssoc_ne m i j _ (fun hh => hj hh.symm)
      | some e => exact lookupAssoc_updateAssoc_ne m i j _ (fun hh => hj hh.symm)
  | relayedO i v =>
      simp only [applyOp, NodeRelationshipMap.relayed]
      cases h : lookupAssoc m i with
      | none => rfl
      | some e => exact lookupAssoc_updateAssoc_ne m i j _ (fun hh => hj hh.symm)

theorem applyOps_preserves (ops : List (Nat × TableOp))
    (m : NodeRelationshipMap) (j : Uuid)
    (hops : ∀ p ∈ ops, (p.2).target ≠ j) :
    lookupAssoc (applyOps ops m) j = lookupAssoc m j := by
  induction ops generalizing m with
  | nil => rfl
  | cons p rest ih =>
      simp only [applyOps, List.foldl_cons] at ih ⊢
      rw [ih _ (fun q hq => hops q (List.mem_cons_of_mem p hq))]
      exact applyOp_preserves p m j (hops p (List.mem_cons_self p rest))

/-- C7 counterexample: the entry seeded by `announced` has relation
`Local`, so a `relayed(id, via)` event (a received `ProvideRelay`) — which
is neither a `pong(id)` nor a further `announced(id, _)` — refreshes
`last_seen` to `now` and flips `knows(id)` to true.  The claim said
`knows(id)` remains false *until* a `pong` or `announced`. -/
theorem C7_relayed_refresh_counterexample :
    NodeRelationshipMap.knows 5000 7
        (NodeRelationshipMap.announced 5000 7 1 []) = false ∧
      NodeRelationshipMap.knows 5000 7
          (NodeRelationshipMap.relayed 5000 7 9
            (NodeRelationshipMap.announced 5000 7 1 [])) = true := by
  constructor
  · decide
  · decide

/-- C7 (amended): after `announced(id, k)` on a previously-unknown id, the
entry is seeded one full TTL in the past, so `knows(id)` is false
immediately and at every later time, and stays false under any sequence of
table operations addressed to *other* ids; a subsequent `pong(id)` or a
further `announced(id, _)` refreshes `last_seen` to its own `now` and makes
`knows(id)` true (and so does `relayed(id, via)` — see the
counterexample — which is why the original "until pong or announce" wording
fails). -/
theorem C7_announced_stale_amended (now : Nat) (id : Uuid) (k : Nat)
    (nodes : NodeRelationshipMap)
    (hnew : lookupAssoc nodes id = none)
    (hnow : RESOLUTION_TTL_SECS ≤ now) :
    (∀ t, now ≤ t →
      NodeRelationshipMap.knows t id
        (NodeRelationshipMap.announced now id k nodes) = false) ∧
    (∀ ops : List (Nat × TableOp), (∀ p ∈ ops, (p.2).target ≠ id) →
      ∀ t, now ≤ t →
        NodeRelationshipMap.knows t id
          (applyOps ops (NodeRelationshipMap.announced now id k nodes)) =
          false) ∧
    (∀ t2, NodeRelationshipMap.knows t2 id
        (NodeRelationshipMap.pong t2 id
          (NodeRelationshipMap.announced now id k nodes)) = true) ∧
    (∀ t2 k2, NodeRelationshipMap.knows t2 id
        (NodeRelationshipMap.announced t2 id k2
          (NodeRelationshipMap.announced now id k nodes)) = true) := by
  have hTpos : 0 < RESOLUTION_TTL_SECS := by decide
  have hentry :
      lookupAssoc (NodeRelationshipMap.announced now id k nodes) id =
        some (now - RESOLUTION_TTL_SECS, NodeRelation.local, k) := by
    simp [NodeRelationshipMap.announced, hnew, lookupAssoc_updateAssoc_self]
  have hstale : ∀ t, now ≤ t →
      NodeRelationshipMap.knows t id
        (NodeRelationshipMap.announced now id k nodes) = false := by
    intro t ht
    simp only [NodeRelationshipMap.knows, hentry]
    have hna : ¬ (t - (now - RESOLUTION_TTL_SECS) < RESOLUTION_TTL_SECS) := by
      omega
    simp [hna]
  refine ⟨hstale, ?_, ?_, ?_⟩
  · intro ops hops t ht
    simp only [NodeRelationshipMap.knows, applyOps_preserves _ _ _ hops,
      hentry]
    have hna : ¬ (t - (now - RESOLUTION_TTL_SECS) < RESOLUTION_TTL_SECS) := by
      omega
    simp [hna]
  · intro t2
    simp only [NodeRelationshipMap.pong, hentry, NodeRelationshipMap.knows,
      lookupAssoc_updateAssoc_self]
    simp [hTpos]
  · intro t2 k2
    generalize hA : NodeRelationshipMap.announced now id k nodes = A at hentry ⊢
    simp only [NodeRelationshipMap.announced, hentry,
      NodeRelationshipMap.knows, lookupAssoc_updateAssoc_self]
    simp [hTpos]

/-- Witness for C7 (amended) at concrete times and tables: stale right
after the announce, still stale after an unrelated pong, fresh after its
own pong or a second announce. -/
theorem C7_witness :
    NodeRelationshipMap.knows 5000 7
        (NodeRelationshipMap.announced 5000 7 1 []) = false ∧
      NodeRelationshipMap.knows 6000 7
        (applyOps [(5500, TableOp.pongO 3)]
          (NodeRelationshipMap.announced 5000 7 1 [])) = false ∧
      NodeRelationshipMap.knows 6000 7
        (NodeRelationshipMap.pong 6000 7
          (NodeRelationshipMap.announced 5000 7 1 [])) = true ∧
      NodeRelationshipMap.knows 6000 7
        (NodeRelationshipMap.announced 6000 7 2
          (NodeRelationshipMap.announced 5000 7 1 [])) = true := by
  have h := C7_announced_stale_amended 5000 7 1 [] (by decide) (by decide)
  exact ⟨h.1 5000 (by decide),
    h.2.1 [(5500, TableOp.pongO 3)] (by decide) 6000 (by decide),
    h.2.2.1 6000, h.2.2.2 6000 2⟩

/-! ## Unicast send (`Network::send`) -/

/-- Model of `Network::send`, as the list of frames handed to `transport.send`
together with the error, if any.  A broadcast (no target) is serialized and
sent; a targeted message requires a fresh peer-table entry
(`nodes.get(&id)`), failing with `Unknown node` *before* any frame is
emitted; a `Local` peer gets the message as-is; a `Relay{via}` peer gets it
wrapped in a `Relay` routing message targeted at `via`. -/
def Network.send (nodes : NodeRelationshipMap) (now ts : Nat)
    (m : FLESHMessage) : List (List Nat) × Option String :=
  match m.target with
  | none => ([m.serialize], none)
  | some id =>
      match NodeRelationshipMap.get now id nodes with
      | none => ([], some "Unknown node")
      | some (NodeRelation.local, _) => ([m.serialize], none)
      | some (NodeRelation.relay via, _) =>
          ([(((RoutingMessage.relay id m).to_message ts).with_target
              via).serialize], none)

/-- C9: a targeted send to a peer with no fresh table entry — absent, or
`last_seen` a full TTL (or more) in the past — fails synchronously with the
unknown-peer error and hands no frame to the transport (and, being a pure
read of the table, changes no entry). -/
theorem C9_unknown_peer_send (nodes : NodeRelationshipMap) (now ts : Nat)
    (m : FLESHMessage) (x : Uuid)
    (htarget : m.target = some x)
    (hstale : ∀ t rel k, lookupAssoc nodes x = some (t, rel, k) →
      RESOLUTION_TTL_SECS ≤ now - t) :
    Network.send nodes now ts m = ([], some "Unknown node") := by
  have hget : NodeRelationshipMap.get now x nodes = none := by
    unfold NodeRelationshipMap.get
    cases hl : lookupAssoc nodes x with
    | none => rfl
    | some e =>
        obtain ⟨t, rel, k⟩ := e
        have hge := hstale t rel k hl
        have hno : ¬ (now - t < RESOLUTION_TTL_SECS) := by omega
        simp [hno]
  simp [Network.send, htarget, hget]

/-- Witness for C9: peer 4 was announced long ago (`last_seen = 0`) and the
TTL (5000 s) has passed at `now = 6000`; the send fails and emits nothing. -/
theorem C9_witness :
    Network.send [(4, (0, NodeRelation.local, 9))] 6000 0
        { FLESHMessage.new .acknowledge 0 with target := some 4 } =
      ([], some "Unknown node") :=
  C9_unknown_peer_send [(4, (0, NodeRelation.local, 9))] 6000 0
    { FLESHMessage.new .acknowledge 0 with target := some 4 } 4 rfl
    (by
      intro t rel k h
      simp [lookupAssoc] at h
      have hT : RESOLUTION_TTL_SECS = 5000 := rfl
      omega)

/-! ## Fragmentation and reassembly (`src/resolution/resolver.rs`) -/

/-- A `MessagePart` (the `bincode`-encoded payload of
`InternalMessage::Split`).  `part` and `total_parts` are `u16` in the
source; the `as u16` casts at the construction site are modelled as
`% 65536`. -/
structure MessagePart : Type where
  id : Uuid
  part : Nat
  total_parts : Nat
  data : List Nat
deriving DecidableEq, Repr

/-- Model of `slice::chunks` worker, structurally recursive on a fuel bound (any
`fuel ≥ xs.length` computes the true chunk list when `n ≥ 1`). -/
def chunksFuel (n : Nat) : Nat → List Nat → List (List Nat)
  | 0, _ => []
  | _ + 1, [] => []
  | fuel + 1, x :: xs =>
      (x :: xs).take n :: chunksFuel n fuel ((x :: xs).drop n)

/-- Model of `data.chunks(n)` (the Rust call panics for `n = 0`; every use below
has `n = max_length - 100 ≥ 1`). -/
def chunksOf (n : Nat) (xs : List Nat) : List (List Nat) :=
  chunksFuel n xs.length xs

/-- Model of `chunks.iter().enumerate()` worker of `send_with_splitting`: one
`MessagePart` per chunk, indices counted from `i`. -/
def splitPartsGo (pid : Uuid) (total : Nat) :
    Nat → List (List Nat) → List MessagePart
  | _, [] => []
  | i, c :: rest =>
      { id := pid, part := i % 65536, total_parts := total, data := c } ::
        splitPartsGo pid total (i + 1) rest

/-- The split parts produced by `send_with_splitting` for an oversized
payload: a shared fresh part id, chunk size `max_length - 100`,
`total_parts = chunks.len() as u16`, indices `i as u16`. -/
def splitParts (pid : Uuid) (maxLen : Nat) (data : List Nat) :
    List MessagePart :=
  let chunks := chunksOf (maxLen - 100) data
  splitPartsGo pid (chunks.length % 65536) 0 chunks

/-- A frame handed to the transport send closure. -/
inductive Frame : Type
  | raw (data : List Nat)
  | split (p : MessagePart)
deriving DecidableEq, Repr

/-- Model of `Resolver::send_with_splitting`: a payload within `max_length` is sent
raw in one frame; a longer payload is split. -/
def send_with_splitting (pid : Uuid) (maxLen : Nat) (data : List Nat) :
    List Frame :=
  if data.length ≤ maxLen then [Frame.raw data]
  else (splitParts pid maxLen data).map Frame.split

/-- Model of `PartialMessage`: sparse index ↦ chunk map plus `last_update`. -/
structure PartialMessage : Type where
  parts : List (Nat × List Nat)
  last_update : Nat
deriving DecidableEq, Repr

/-- The pending-reassembly map (`partial_messages`). -/
abbrev Partials : Type := List (Uuid × PartialMessage)

/-- The body of the reconstruction loop inside `handle_message_part`:
look each index up in turn, `none` as soon as one is missing. -/
def collectGo (parts : List (Nat × List Nat)) : List Nat → Option (List (List Nat))
  | [] => some []
  | i :: rest =>
      match lookupAssoc parts i with
      | none => none
      | some c => (collectGo parts rest).map (fun cs => c :: cs)

/-- The reconstruction loop inside `handle_message_part`: chunks
`0..total` in index order concatenated, `none` if any is missing. -/
def collectParts (parts : List (Nat × List Nat)) (total : Nat) :
    Option (List Nat) :=
  (collectGo parts (List.range total)).map List.flatten

/-- Model of `Resolver::handle_message_part`: find-or-create the entry, insert the
chunk, refresh `last_update`; when the part count reaches `total_parts`,
reconstruct in index order, drop the entry and emit the bytes (the Rust
code wraps them in `Message::new().with_body(..)`). -/
def handle_message_part (now : Nat) (part : MessagePart)
    (partials : Partials) : Partials × Option (List Nat) :=
  let entry :=
    match lookupAssoc partials part.id with
    | some pm => pm
    | none => { parts := [], last_update := now }
  let pm : PartialMessage :=
    { parts := updateAssoc entry.parts part.part part.data
      last_update := now }
  if pm.parts.length = part.total_parts then
    match collectParts pm.parts part.total_parts with
    | some bytes =>
        (removeAssoc (updateAssoc partials part.id pm) part.id, some bytes)
    | none => (updateAssoc partials part.id pm, none)
  else (updateAssoc partials part.id pm, none)

/-- Feed a list of parts through `handle_message_part`, collecting every
emitted reassembled payload. -/
def runParts (now : Nat) (ps : List MessagePart) (partials : Partials) :
    Partials × List (List Nat) :=
  match ps with
  | [] => (partials, [])
  | p :: rest =>
      let step := handle_message_part now p partials
      let next := runParts now rest step.1
      (next.1, step.2.toList ++ next.2)

theorem chunksFuel_flatten (n : Nat) (hn : 0 < n) :
    ∀ (fuel : Nat) (xs : List Nat), xs.length ≤ fuel →
      (chunksFuel n fuel xs).flatten = xs := by
  intro fuel
  induction fuel with
  | zero =>
      intro xs hxs
      have : xs = [] := List.eq_nil_of_length_eq_zero (by omega)
      subst this
      rfl
  | succ fuel ih =>
      intro xs hxs
      cases xs with
      | nil => rfl
      | cons x t =>
          have hlen : t.length + 1 ≤ fuel + 1 := by simpa using hxs
          simp only [chunksFuel, List.flatten_cons]
          rw [ih ((x :: t).drop n)
            (by simp only [List.length_drop, List.length_cons]; omega)]
          exact List.take_append_drop n (x :: t)

theorem chunksOf_flatten (n : Nat) (hn : 0 < n) (xs : List Nat) :
    (chunksOf n xs).flatten = xs :=
  chunksFuel_flatten n hn xs.length xs (Nat.le_refl _)

theorem chunksFuel_length_one :
    ∀ (fuel : Nat) (xs : List Nat), xs.length ≤ fuel →
      (chunksFuel 1 fuel xs).length = xs.length := by
  intro fuel
  induction fuel with
  | zero =>
      intro xs hxs
      have : xs = [] := List.eq_nil_of_length_eq_zero (by omega)
      subst this
      rfl
  | succ fuel ih =>
      intro xs hxs
      cases xs with
      | nil => rfl
      | cons x t =>
          have hlen : t.length + 1 ≤ fuel + 1 := by simpa using hxs
          simp only [chunksFuel, List.length_cons]
          rw [ih ((x :: t).drop 1)
            (by simp only [List.length_drop, List.length_cons]; omega)]
          simp

theorem chunksOf_one_length (xs : List Nat) :
    (chunksOf 1 xs).length = xs.length :=
  chunksFuel_length_one xs.length xs (Nat.le_refl _)

theorem chunksOf_ne_nil (n : Nat) (xs : List Nat) (hxs : xs ≠ []) :
    chunksOf n xs ≠ [] := by
  cases xs with
  | nil => exact absurd rfl hxs
  | cons x t => simp [chunksOf, chunksFuel]

theorem lookupAssoc_eq_none_of_not_mem {κ α : Type} [DecidableEq κ]
    (l : List (κ × α)) (k : κ) (h : k ∉ l.map Prod.fst) :
    lookupAssoc l k = none := by
  induction l with
  | nil => rfl
  | cons hd tl ih =>
      obtain ⟨k', v'⟩ := hd
      simp only [List.map_cons, List.mem_cons] at h
      push_neg at h
      simp only [lookupAssoc]
      rw [if_neg (fun hh => h.1 hh.symm), ih h.2]

theorem collectGo_eq (parts : List (Nat × List Nat)) (g : Nat → List Nat)
    (l : List Nat) (h : ∀ i ∈ l, lookupAssoc parts i = some (g i)) :
    collectGo parts l = some (l.map g) := by
  induction l with
  | nil => rfl
  | cons i rest ih =>
      simp only [collectGo, h i (List.mem_cons_self i rest),
        ih (fun j hj => h j (List.mem_cons_of_mem i hj)), Option.map_some',
        List.map_cons]

theorem map_getD_range (l : List (List Nat)) :
    (List.range l.length).map (fun i => l.getD i []) = l := by
  induction l with
  | nil => rfl
  | cons x t ih =>
      rw [List.length_cons, List.range_succ_eq_map, List.map_cons,
        List.map_map]
      have h2 : (List.range t.length).map
          ((fun i => (x :: t).getD i []) ∘ Nat.succ) =
          (List.range t.length).map (fun i => t.getD i []) :=
        List.map_congr_left (fun i _ => by simp [List.getD_cons_succ])
      rw [h2, ih]
      simp [List.getD_cons_zero]

theorem nodup_length_le (l : List Nat) (N : Nat) (hnd : l.Nodup)
    (hlt : ∀ x ∈ l, x < N) : l.length ≤ N := by
  have hsub : l.toFinset ⊆ Finset.range N := by
    intro x hx
    exact Finset.mem_range.mpr (hlt x (List.mem_toFinset.mp hx))
  have hcard := Finset.card_le_card hsub
  rw [List.toFinset_card_of_nodup hnd, Finset.card_range] at hcard
  exact hcard

theorem full_range_mem (l : List Nat) (N : Nat) (hnd : l.Nodup)
    (hlt : ∀ x ∈ l, x < N) (hlen : l.length = N) :
    ∀ i, i < N → i ∈ l := by
  have hsub : l.toFinset ⊆ Finset.range N := by
    intro x hx
    exact Finset.mem_range.mpr (hlt x (List.mem_toFinset.mp hx))
  have heq : l.toFinset = Finset.range N := by
    apply Finset.eq_of_subset_of_card_le hsub
    rw [List.toFinset_card_of_nodup hnd, Finset.card_range, hlen]
  intro i hi
  have : i ∈ l.toFinset := heq ▸ Finset.mem_range.mpr hi
  exact List.mem_toFinset.mp this

theorem mem_splitPartsGo (pid : Uuid) (total : Nat) :
    ∀ (chunks : List (List Nat)) (i : Nat) (p : MessagePart),
      p ∈ splitPartsGo pid total i chunks →
      ∃ j, j < chunks.length ∧
        p = { id := pid, part := (i + j) % 65536, total_parts := total,
              data := chunks.getD j [] } := by
  intro chunks
  induction chunks with
  | nil => intro i p hp; simp [splitPartsGo] at hp
  | cons c rest ih =>
      intro i p hp
      simp only [splitPartsGo, List.mem_cons] at hp
      rcases hp with hp | hp
      · exact ⟨0, by simp, by simpa using hp⟩
      · obtain ⟨j, hj, hpe⟩ := ih (i + 1) p hp
        refine ⟨j + 1, by simpa using hj, ?_⟩
        rw [hpe]
        simp [Nat.add_assoc, Nat.add_comm 1 j]

theorem splitPartsGo_map_part (pid : Uuid) (total : Nat) :
    ∀ (chunks : List (List Nat)) (i : Nat),
      (splitPartsGo pid total i chunks).map MessagePart.part =
        (List.range' i chunks.length).map (fun j => j % 65536) := by
  intro chunks
  induction chunks with
  | nil => intro i; rfl
  | cons c rest ih =>
      intro i
      simp only [splitPartsGo, List.map_cons, List.length_cons, List.range',
        ih (i + 1)]

theorem splitPartsGo_length (pid : Uuid) (total : Nat) :
    ∀ (chunks : List (List Nat)) (i : Nat),
      (splitPartsGo pid total i chunks).length = chunks.length := by
  intro chunks
  induction chunks with
  | nil => intro i; rfl
  | cons c rest ih => intro i; simp [splitPartsGo, ih]

theorem splitPartsGo_total (pid : Uuid) (total : Nat) :
    ∀ (chunks : List (List Nat)) (i : Nat) (p : MessagePart),
      p ∈ splitPartsGo pid total i chunks → p.total_parts = total := by
  intro chunks
  induction chunks with
  | nil => intro i p hp; simp [splitPartsGo] at hp
  | cons c rest ih =>
      intro i p hp
      simp only [splitPartsGo, List.mem_cons] at hp
      rcases hp with hp | hp
      · subst hp; rfl
      · exact ih (i + 1) p hp

/-- Model of `handle_message_part` in terms of the current bindings `E` of the
entry for `p.id` (empty if absent). -/
theorem handle_message_part_eq (now : Nat) (p : MessagePart)
    (partials : Partials) (E : List (Nat × List Nat))
    (hE : (match lookupAssoc partials p.id with
        | some pm => pm.parts
        | none => []) = E) :
    handle_message_part now p partials =
      (if (updateAssoc E p.part p.data).length = p.total_parts then
        match collectParts (updateAssoc E p.part p.data) p.total_parts with
        | some bytes =>
            (removeAssoc
              (updateAssoc partials p.id
                { parts := updateAssoc E p.part p.data, last_update := now })
              p.id, some bytes)
        | none =>
            (updateAssoc partials p.id
              { parts := updateAssoc E p.part p.data, last_update := now },
              none)
      else
        (updateAssoc partials p.id
          { parts := updateAssoc E p.part p.data, last_update := now },
          none)) := by
  have hparts : (match lookupAssoc partials p.id with
      | some pm => pm
      | none => { parts := [], last_update := now } :
        PartialMessage).parts = E := by
    cases hlp : lookupAssoc partials p.id with
    | none => rw [hlp] at hE; exact hE
    | some pmv => rw [hlp] at hE; exact hE
  simp only [handle_message_part, hparts]

/-- The reassembly workhorse: processing a batch `L` of parts of one
family (shared id `pid`, shared total `N`, distinct in-range indices,
chunk `i` carrying `chunk i`) against a table whose entry for `pid`
currently holds exactly the bindings `E`.  When the batch completes the
family, the run emits exactly the in-order concatenation of all `N` chunks
and drops the entry; otherwise it emits nothing and the entry accumulates
the arrivals in order. -/
theorem runParts_family (pid : Uuid) (N : Nat) (chunk : Nat → List Nat)
    (now : Nat) :
    ∀ (L : List MessagePart) (E : List (Nat × List Nat))
      (partials : Partials),
      (∀ p ∈ L, p.id = pid ∧ p.total_parts = N ∧ p.part < N ∧
        p.data = chunk p.part) →
      (∀ iv ∈ E, iv.1 < N ∧ iv.2 = chunk iv.1) →
      (E.map Prod.fst ++ L.map MessagePart.part).Nodup →
      (match lookupAssoc partials pid with
        | some pm => pm.parts
        | none => []) = E →
      (E.length + L.length = N ∧ L ≠ [] →
        runParts now L partials =
          (removeAssoc partials pid,
            [((List.range N).map chunk).flatten])) ∧
      (¬ (E.length + L.length = N ∧ L ≠ []) →
        runParts now L partials =
          ((if L = [] then partials
            else updateAssoc partials pid
              { parts := E ++ L.map (fun p => (p.part, p.data)),
                last_update := now }), [])) := by
  intro L
  induction L with
  | nil =>
      intro E partials hfam hE hnd hlook
      constructor
      · intro hc
        exact absurd rfl hc.2
      · intro _
        simp [runParts]
  | cons p rest ih =>
      intro E partials hfam hE hnd hlook
      obtain ⟨hpid, htot, hplt, hpdata⟩ := hfam p (List.mem_cons_self p rest)
      subst hpid
      rw [List.map_cons] at hnd
      have hsplit := List.nodup_append.mp hnd
      have hfreshE : p.part ∉ E.map Prod.fst := fun hmem =>
        hsplit.2.2 hmem (List.mem_cons_self _ _)
      have hEinsert : updateAssoc E p.part p.data = E ++ [(p.part, p.data)] :=
        updateAssoc_fresh _ _ _ (lookupAssoc_eq_none_of_not_mem E p.part hfreshE)
      have hkeysE : ∀ x ∈ E.map Prod.fst, x < N := by
        intro x hx
        obtain ⟨iv, hiv, rfl⟩ := List.mem_map.mp hx
        exact (hE iv hiv).1
      have hE' : ∀ iv ∈ E ++ [(p.part, p.data)],
          iv.1 < N ∧ iv.2 = chunk iv.1 := by
        intro iv hiv
        rcases List.mem_append.mp hiv with hiv | hiv
        · exact hE iv hiv
        · simp only [List.mem_singleton] at hiv
          subst hiv
          exact ⟨hplt, hpdata⟩
      by_cases hcomp : E.length + 1 = N
      · -- this part completes the family: `rest` must be empty
        have hrest : rest = [] := by
          have hltall : ∀ x ∈ E.map Prod.fst ++ p.part :: rest.map
              MessagePart.part, x < N := by
            intro x hx
            rcases List.mem_append.mp hx with hx | hx
            · exact hkeysE x hx
            · rcases List.mem_cons.mp hx with hx | hx
              · subst hx; exact hplt
              · obtain ⟨q, hq, rfl⟩ := List.mem_map.mp hx
                exact (hfam q (List.mem_cons_of_mem p hq)).2.2.1
          have hlen := nodup_length_le _ N hnd hltall
          simp only [List.length_append, List.length_cons,
            List.length_map] at hlen
          exact List.length_eq_zero.mp (by omega : rest.length = 0)
        subst hrest
        have hkeys' : (E ++ [(p.part, p.data)]).map Prod.fst =
            E.map Prod.fst ++ [p.part] := by simp
        have hndkeys : ((E ++ [(p.part, p.data)]).map Prod.fst).Nodup := by
          rw [hkeys']
          simpa using hnd
        have hlenkeys : ((E ++ [(p.part, p.data)]).map Prod.fst).length = N := by
          simp only [List.length_map, List.length_append,
            List.length_singleton]
          omega
        have hltkeys : ∀ x ∈ (E ++ [(p.part, p.data)]).map Prod.fst, x < N := by
          intro x hx
          obtain ⟨iv, hiv, rfl⟩ := List.mem_map.mp hx
          exact (hE' iv hiv).1
        have hfull := full_range_mem _ N hndkeys hltkeys hlenkeys
        have hlookup_i : ∀ i ∈ List.range N,
            lookupAssoc (E ++ [(p.part, p.data)]) i = some (chunk i) := by
          intro i hi
          have hi' := List.mem_range.mp hi
          have hmem := hfull i hi'
          have hsome := lookupAssoc_isSome_of_mem_keys _ _ hmem
          obtain ⟨v, hv⟩ := Option.isSome_iff_exists.mp hsome
          have hmem2 := lookupAssoc_mem _ _ _ hv
          have hvc : v = chunk i := by simpa using (hE' (i, v) hmem2).2
          rw [hv, hvc]
        have hcollect : collectParts (E ++ [(p.part, p.data)]) N =
            some ((List.range N).map chunk).flatten := by
          simp only [collectParts, collectGo_eq _ chunk _ hlookup_i,
            Option.map_some']
        have hstep := handle_message_part_eq now p partials E hlook
        rw [hEinsert] at hstep
        rw [if_pos (by simp only [List.length_append,
          List.length_singleton]; omega : (E ++ [(p.part, p.data)]).length =
            p.total_parts)] at hstep
        rw [htot, hcollect] at hstep
        constructor
        · intro _
          simp only [runParts, hstep, removeAssoc_updateAssoc,
            Option.toList_some, List.singleton_append, List.nil_append]
        · intro hnc
          exact absurd ⟨by simpa using hcomp, List.cons_ne_nil p []⟩ hnc
      · -- not yet complete: the entry just accumulates
        have hstep := handle_message_part_eq now p partials E hlook
        rw [hEinsert] at hstep
        rw [if_neg (by
          rw [htot]
          simp only [List.length_append, List.length_singleton]
          omega : ¬ (E ++ [(p.part, p.data)]).length = p.total_parts)] at hstep
        have hfc : ∀ q ∈ rest, q.id = p.id ∧ q.total_parts = N ∧
            q.part < N ∧ q.data = chunk q.part :=
          fun q hq => hfam q (List.mem_cons_of_mem p hq)
        have hnd' : ((E ++ [(p.part, p.data)]).map Prod.fst ++
            rest.map MessagePart.part).Nodup := by
          have heq : (E ++ [(p.part, p.data)]).map Prod.fst ++
              rest.map MessagePart.part =
              E.map Prod.fst ++ p.part :: rest.map MessagePart.part := by
            simp
          rw [heq]
          exact hnd
        have hlook2 : (match lookupAssoc
            (updateAssoc partials p.id
              { parts := E ++ [(p.part, p.data)], last_update := now }) p.id
            with
            | some pm => pm.parts
            | none => []) = E ++ [(p.part, p.data)] := by
          rw [lookupAssoc_updateAssoc_self]
        have hih := ih (E ++ [(p.part, p.data)])
          (updateAssoc partials p.id
            { parts := E ++ [(p.part, p.data)], last_update := now })
          hfc hE' hnd' hlook2
        constructor
        · intro hc
          have hsum : (E ++ [(p.part, p.data)]).length + rest.length = N := by
            have h1 := hc.1
            simp only [List.length_cons] at h1
            simp only [List.length_append, List.length_singleton]
            omega
          have hrest : rest ≠ [] := by
            intro hnil
            subst hnil
            simp only [List.length_append, List.length_singleton,
              List.length_nil, Nat.add_zero] at hsum
            exact hcomp (by omega)
          have hrun := hih.1 ⟨hsum, hrest⟩
          simp only [runParts, hstep, hrun, Option.toList_none,
            List.nil_append, removeAssoc_updateAssoc]
        · intro hnc
          have hsum : ¬ ((E ++ [(p.part, p.data)]).length + rest.length = N ∧
              rest ≠ []) := by
            intro hcc
            apply hnc
            refine ⟨?_, List.cons_ne_nil p rest⟩
            have h1 := hcc.1
            simp only [List.length_append, List.length_singleton] at h1
            simp only [List.length_cons]
            omega
          have hrun := hih.2 hsum
          by_cases hrest : rest = []
          · subst hrest
            rw [if_pos rfl] at hrun
            simp only [runParts, hstep, hrun, Option.toList_none,
              List.nil_append, List.map_cons, List.map_nil]
            rw [if_neg (List.cons_ne_nil p [])]
          · rw [if_neg hrest] at hrun
            simp only [runParts, hstep, hrun, Option.toList_none,
              List.nil_append, updateAssoc_updateAssoc]
            rw [if_neg (List.cons_ne_nil p rest)]
            simp only [List.map_cons, List.append_assoc,
              List.singleton_append]

/-- C8 counterexample: `total_parts` is a `u16` (`chunks.len() as u16`),
so for a payload of 65537 one-byte chunks (`max_length = 101`, chunk size
1) the sender stamps every part with `total_parts = 65537 % 65536 = 1` —
not the number of chunks, as the claim states.  (The first part alone then
satisfies the reassembler's `parts.len() == total_parts` check.) -/
theorem C8_total_truncation_counterexample :
    (chunksOf (101 - 100) (List.replicate 65537 0)).length = 65537 ∧
      splitParts 0 101 (List.replicate 65537 0) ≠ [] ∧
      ∀ p ∈ splitParts 0 101 (List.replicate 65537 0),
        p.total_parts = 1 := by
  have h11 : (101 : Nat) - 100 = 1 := rfl
  have hlen : (chunksOf (101 - 100) (List.replicate 65537 (0 : Nat))).length
      = 65537 := by
    rw [h11, chunksOf_one_length, List.length_replicate]
  refine ⟨hlen, ?_, ?_⟩
  · simp only [splitParts]
    intro hc
    have hlen2 := splitPartsGo_length 0
      ((chunksOf (101 - 100) (List.replicate 65537 (0 : Nat))).length % 65536)
      (chunksOf (101 - 100) (List.replicate 65537 (0 : Nat))) 0
    rw [hc] at hlen2
    rw [hlen] at hlen2
    simp at hlen2
  · intro p hp
    simp only [splitParts] at hp
    have htp := splitPartsGo_total _ _ _ _ _ hp
    rw [htp, hlen]

/-- C8 (amended): for a payload longer than `max_length` (with
`max_length > 100`, so the chunk size `max_length - 100` is positive, and
at most 65535 chunks, so the `u16` index and total fields are not
truncated), the sender emits one `Split` frame per chunk with the shared
part id, consecutive indices `0..total-1` and `total` equal to the number
of chunks; feeding those parts to the reassembler in any permutation with
no loss emits exactly the original payload bytes and leaves the
pending-reassembly map without that part id (and with every other entry
untouched), while withholding any one part makes the run emit nothing. -/
theorem C8_fragmentation_amended (pid : Uuid) (maxLen : Nat)
    (data : List Nat) (now : Nat) (partials0 : Partials)
    (ps : List MessagePart)
    (hmax : 100 < maxLen) (hlong : maxLen < data.length)
    (hcap : (chunksOf (maxLen - 100) data).length ≤ 65535)
    (hperm : ps.Perm (splitParts pid maxLen data))
    (hfresh : lookupAssoc partials0 pid = none) :
    send_with_splitting pid maxLen data =
        (splitParts pid maxLen data).map Frame.split ∧
      (splitParts pid maxLen data).map MessagePart.part =
        List.range (chunksOf (maxLen - 100) data).length ∧
      (∀ p ∈ splitParts pid maxLen data, p.id = pid ∧
        p.total_parts = (chunksOf (maxLen - 100) data).length) ∧
      runParts now ps partials0 = (partials0, [data]) ∧
      (∀ q ∈ splitParts pid maxLen data, ∀ ps2 : List MessagePart,
        ps2.Perm ((splitParts pid maxLen data).erase q) →
        (runParts now ps2 partials0).2 = []) := by
  have hsz : 0 < maxLen - 100 := by omega
  have hdata : data ≠ [] := by
    intro hnil
    rw [hnil] at hlong
    simp at hlong
  have hjoin : (chunksOf (maxLen - 100) data).flatten = data :=
    chunksOf_flatten _ hsz data
  have hNpos : 0 < (chunksOf (maxLen - 100) data).length :=
    List.length_pos.mpr (chunksOf_ne_nil _ data hdata)
  have htotmod : (chunksOf (maxLen - 100) data).length % 65536 =
      (chunksOf (maxLen - 100) data).length :=
    Nat.mod_eq_of_lt (by omega)
  have hsplen : (splitParts pid maxLen data).length =
      (chunksOf (maxLen - 100) data).length := by
    simp only [splitParts]
    exact splitPartsGo_length _ _ _ _
  have hmappart : (splitParts pid maxLen data).map MessagePart.part =
      List.range (chunksOf (maxLen - 100) data).length := by
    simp only [splitParts]
    rw [splitPartsGo_map_part, ← List.range_eq_range']
    calc (List.range (chunksOf (maxLen - 100) data).length).map
          (fun j => j % 65536)
        = (List.range (chunksOf (maxLen - 100) data).length).map id := by
          refine List.map_congr_left (fun j hj => ?_)
          have := List.mem_range.mp hj
          exact Nat.mod_eq_of_lt (by omega)
      _ = _ := List.map_id _
  have hfamAll : ∀ p ∈ splitParts pid maxLen data, p.id = pid ∧
      p.total_parts = (chunksOf (maxLen - 100) data).length ∧
      p.part < (chunksOf (maxLen - 100) data).length ∧
      p.data = (chunksOf (maxLen - 100) data).getD p.part [] := by
    intro p hp
    simp only [splitParts] at hp
    obtain ⟨j, hj, rfl⟩ := mem_splitPartsGo _ _ _ _ _ hp
    have hjmod : (0 + j) % 65536 = j := by
      rw [Nat.zero_add]
      exact Nat.mod_eq_of_lt (by omega)
    refine ⟨rfl, htotmod, ?_, ?_⟩
    · simp only [hjmod]
      exact hj
    · simp only [hjmod]
  refine ⟨?_, hmappart, ?_, ?_, ?_⟩
  · simp only [send_with_splitting]
    rw [if_neg (by omega)]
  · intro p hp
    exact ⟨(hfamAll p hp).1, (hfamAll p hp).2.1⟩
  · -- full permutation: reassembles to the original payload
    have hfamPs : ∀ p ∈ ps, p.id = pid ∧
        p.total_parts = (chunksOf (maxLen - 100) data).length ∧
        p.part < (chunksOf (maxLen - 100) data).length ∧
        p.data = (chunksOf (maxLen - 100) data).getD p.part [] :=
      fun p hp => hfamAll p (hperm.mem_iff.mp hp)
    have hnodup : (([] : List (Nat × List Nat)).map Prod.fst ++
        ps.map MessagePart.part).Nodup := by
      simp only [List.map_nil, List.nil_append]
      have hpm := hperm.map MessagePart.part
      refine hpm.nodup_iff.mpr ?_
      rw [hmappart]
      exact List.nodup_range _
    have hlook : (match lookupAssoc partials0 pid with
        | some pm => pm.parts
        | none => []) = ([] : List (Nat × List Nat)) := by
      rw [hfresh]
    have hrun := (runParts_family pid
      (chunksOf (maxLen - 100) data).length
      (fun i => (chunksOf (maxLen - 100) data).getD i []) now ps []
      partials0 hfamPs (by intro iv hiv; simp at hiv) hnodup hlook).1
      ⟨by simp [hperm.length_eq, hsplen], by
        intro hnil
        rw [hnil] at hperm
        have := hperm.length_eq
        rw [hsplen] at this
        simp at this
        omega⟩
    rw [hrun, removeAssoc_of_lookup_none _ _ hfresh, map_getD_range, hjoin]
  · -- withholding any one part: nothing is emitted
    intro q hq ps2 hperm2
    have hfam2 : ∀ p ∈ ps2, p.id = pid ∧
        p.total_parts = (chunksOf (maxLen - 100) data).length ∧
        p.part < (chunksOf (maxLen - 100) data).length ∧
        p.data = (chunksOf (maxLen - 100) data).getD p.part [] :=
      fun p hp => hfamAll p
        (List.mem_of_mem_erase (hperm2.mem_iff.mp hp))
    have hnodup2 : (([] : List (Nat × List Nat)).map Prod.fst ++
        ps2.map MessagePart.part).Nodup := by
      simp only [List.map_nil, List.nil_append]
      have hpm := hperm2.map MessagePart.part
      refine hpm.nodup_iff.mpr ?_
      have hsub : List.Sublist
          (((splitParts pid maxLen data).erase q).map MessagePart.part)
          ((splitParts pid maxLen data).map MessagePart.part) :=
        ((splitParts pid maxLen data).erase_sublist q).map _
      refine hsub.nodup ?_
      rw [hmappart]
      exact List.nodup_range _
    have hlook : (match lookupAssoc partials0 pid with
        | some pm => pm.parts
        | none => []) = ([] : List (Nat × List Nat)) := by
      rw [hfresh]
    have hlen2 : ps2.length =
        (chunksOf (maxLen - 100) data).length - 1 := by
      rw [hperm2.length_eq, List.length_erase_of_mem hq, hsplen]
    have hrun := (runParts_family pid
      (chunksOf (maxLen - 100) data).length
      (fun i => (chunksOf (maxLen - 100) data).getD i []) now ps2 []
      partials0 hfam2 (by intro iv hiv; simp at hiv) hnodup2 hlook).2
      (by
        intro hcc
        have h1 := hcc.1
        simp only [List.length_nil, Nat.zero_add] at h1
        rw [hlen2] at h1
        omega)
    rw [hrun]

/-- Witness for C8 (amended): a 102-byte payload over a 101-byte limit is
split into 102 one-byte parts; delivering them (here in sender order, a
permutation of themselves) reassembles the original payload and leaves the
pending map empty. -/
theorem C8_witness :
    runParts 0 (splitParts 0 101 (List.replicate 102 7)) [] =
      ([], [List.replicate 102 7]) :=
  (C8_fragmentation_amended 0 101 (List.replicate 102 7) 0 []
    (splitParts 0 101 (List.replicate 102 7))
    (by decide)
    (by simp)
    (by
      have h11 : (101 : Nat) - 100 = 1 := rfl
      rw [h11, chunksOf_one_length, List.length_replicate]
      omega)
    (List.Perm.refl _) rfl).2.2.2.1
